import Mathlib

/-!
Verification development for the retrieval core of the TahlilchiAI RAG service
(`tahlilchi-rag/app/services/...`).  Python code is shallowly embedded: text is
`List Char`, floats are `ℚ`, database reads are explicit parameters, and
exception flow is `Except`.  Each embedded definition carries a reference to
the source function it models.
-/

namespace Tahlilchi

/-! ## Characters

Python `str.lower()` restricted to the alphabets this service handles
(ASCII and Cyrillic, per the three supported languages). -/

/-- Uppercase→lowercase pairs used by `charLower` (ASCII A–Z, Cyrillic А–Я and Ё). -/
def lowerPairs : List (Char × Char) :=
  [('A','a'),('B','b'),('C','c'),('D','d'),('E','e'),('F','f'),('G','g'),('H','h'),
   ('I','i'),('J','j'),('K','k'),('L','l'),('M','m'),('N','n'),('O','o'),('P','p'),
   ('Q','q'),('R','r'),('S','s'),('T','t'),('U','u'),('V','v'),('W','w'),('X','x'),
   ('Y','y'),('Z','z'),
   ('А','а'),('Б','б'),('В','в'),('Г','г'),('Д','д'),('Е','е'),('Ж','ж'),('З','з'),
   ('И','и'),('Й','й'),('К','к'),('Л','л'),('М','м'),('Н','н'),('О','о'),('П','п'),
   ('Р','р'),('С','с'),('Т','т'),('У','у'),('Ф','ф'),('Х','х'),('Ц','ц'),('Ч','ч'),
   ('Ш','ш'),('Щ','щ'),('Ъ','ъ'),('Ы','ы'),('Ь','ь'),('Э','э'),('Ю','ю'),('Я','я'),
   ('Ё','ё')]

/-- Lowercase a single character (model of Python `str.lower` per character). -/
def charLower (c : Char) : Char :=
  match lowerPairs.find? (fun p => p.1 = c) with
  | some p => p.2
  | none => c

/-- Model of Python's regex word character `\w` over the alphabets in use:
ASCII alphanumerics, underscore, and the Cyrillic block. -/
def isWordChar (c : Char) : Bool :=
  c.isAlphanum || c = '_' || (0x400 ≤ c.toNat && c.toNat ≤ 0x4FF)

/-- Character class `[\w-]` of the tokenizer regex. -/
def inTokenClass (c : Char) : Bool :=
  isWordChar c || c = '-'

theorem charLower_idem (c : Char) : charLower (charLower c) = charLower c := by
  have hall : lowerPairs.all (fun p => (lowerPairs.find? (fun q => q.1 = p.2)).isNone) = true := by
    decide
  unfold charLower
  cases hfind : lowerPairs.find? (fun p => p.1 = c) with
  | none => simp [hfind]
  | some p =>
    have hmem : p ∈ lowerPairs := List.mem_of_find?_eq_some hfind
    have := List.all_eq_true.mp hall p hmem
    cases hfind2 : lowerPairs.find? (fun q => q.1 = p.2) with
    | none => simp
    | some q => rw [hfind2] at this; simp at this

/-- No character inside the token class is whitespace. -/
theorem inTokenClass_not_whitespace {c : Char} (h : inTokenClass c = true) :
    c.isWhitespace = false := by
  by_contra hw
  simp only [Bool.not_eq_false] at hw
  unfold Char.isWhitespace at hw
  simp only [Bool.or_eq_true, decide_eq_true_eq] at hw
  rcases hw with ((h1 | h1) | h1) | h1 <;> subst h1 <;> simp [inTokenClass, isWordChar] at h

/-! ## Tokenizer

Model of `MultilingualTokenizer.tokenize`
(`app/services/tokenizer.py`), with the stopword set (external NLTK data plus
the inline Uzbek list) as a parameter. -/

/-- Strip leading and trailing hyphens from a raw `[\w-]+` run. The Python
pattern `\b[\w-]+\b` requires a word character at both ends of the match, so a
maximal run of `[\w-]` characters contributes exactly its hyphen-trimmed core
(or nothing when it contains no word character). -/
def trimHyphens (t : List Char) : List Char :=
  ((t.dropWhile (fun c => c = '-')).reverse.dropWhile (fun c => c = '-')).reverse

theorem length_dropWhile_le' (p : Char → Bool) (l : List Char) :
    (l.dropWhile p).length ≤ l.length := by
  induction l with
  | nil => simp
  | cons a l ih =>
    rw [List.dropWhile_cons]
    split
    · exact Nat.le_succ_of_le ih
    · simp

/-- All matches of `re.findall(r"\b[\w-]+\b", text)`: maximal `[\w-]` runs,
each trimmed of leading/trailing hyphens, dropped if no word character is left. -/
def tokenFindall : List Char → List (List Char)
  | [] => []
  | c :: rest =>
    if inTokenClass c then
      let run := (c :: rest).takeWhile inTokenClass
      let rest' := rest.dropWhile inTokenClass
      let t := trimHyphens run
      if t.isEmpty then tokenFindall rest' else t :: tokenFindall rest'
    else tokenFindall rest
termination_by l => l.length
decreasing_by
  · exact Nat.lt_succ_of_le (length_dropWhile_le' _ _)
  · exact Nat.lt_succ_of_le (Nat.le_refl _)

/-- Python `str.isdigit` for the ASCII digits appearing in this corpus:
nonempty and all digits. -/
def isDigitToken (t : List Char) : Bool :=
  !t.isEmpty && t.all Char.isDigit

/-- Model of `MultilingualTokenizer.tokenize`: guard for blank input,
lowercase, extract `\b[\w-]+\b` matches, optionally drop stopwords, drop
tokens shorter than 2 characters unless purely numeric. -/
def tokenize (removeStopwords : Bool) (stopwords : List (List Char)) (text : List Char) :
    List (List Char) :=
  if text.all Char.isWhitespace then []
  else
    let lowered := text.map charLower
    let toks := tokenFindall lowered
    let toks := if removeStopwords then toks.filter (fun t => !stopwords.contains t) else toks
    toks.filter (fun t => 2 ≤ t.length || isDigitToken t)

/-- Space-join of a token list, the canonical text form of a tokenizer output. -/
def joinSpace : List (List Char) → List Char
  | [] => []
  | [t] => t
  | t :: ts => t ++ ' ' :: joinSpace ts

/-! ## Query analyzer

Model of `QueryAnalyzer` (`app/services/router/query_analyzer.py`).  The
language-detection call is external (`langdetect`) and its result is ignored
by `_has_question_words` and by classification, so it is not modelled. -/

/-- Does `needle` occur at the start of `hay`? -/
def startsWithChars : List Char → List Char → Bool
  | [], _ => true
  | _ :: _, [] => false
  | n :: ns, h :: hs => n = h && startsWithChars ns hs

/-- Python substring test `needle in hay`. -/
def occursIn (needle hay : List Char) : Bool :=
  match hay with
  | [] => needle.isEmpty
  | _ :: hs => startsWithChars needle hay || occursIn needle hs

/-- Question words of `QueryAnalyzer.question_words` (en, ru, uz). -/
def questionWords : List String :=
  ["what", "who", "where", "when", "why", "how", "which", "whose",
   "что", "кто", "где", "когда", "почему", "как", "какой", "чей",
   "nima", "kim", "qayer", "qachon", "nega", "qanday", "qaysi"]

/-- Model of `QueryAnalyzer._has_question_words`: any question word from any
language list is a substring of the lowercased query, or the query contains
a question mark.  The `language` argument of the Python method is unused. -/
def hasQuestionWords (q : String) : Bool :=
  (questionWords.any (fun w => occursIn w.data (q.data.map charLower))) || q.data.contains '?'

/-- Keyword alternatives of the reference patterns
`\b[Aa]rticle\s+\d+`, `\b[Ss]ection\s+\d+`, `\b[Cc]lause\s+\d+`,
`\b[Mm]odda\s+\d+`, `\b[Бб]андл?\s+\d+`, `\b[Сс]татья\s+\d+`
(each first letter in both cases; the optional `л?` expands into two
alternatives). -/
def refKeywords : List String :=
  ["article", "Article", "section", "Section", "clause", "Clause",
   "modda", "Modda", "бандл", "Бандл", "банд", "Банд", "статья", "Статья"]

/-- After a reference keyword the patterns require `\s+\d`: at least one
whitespace character followed (after further whitespace) by a digit. -/
def refTail (rest : List Char) : Bool :=
  match rest with
  | [] => false
  | c :: cs =>
    c.isWhitespace &&
      (match cs.dropWhile Char.isWhitespace with
       | d :: _ => d.isDigit
       | [] => false)

/-- Scan for a reference pattern match; `prevIsWord` tracks the `\b`
word-boundary condition before the keyword. -/
def hasRefAux : Bool → List Char → Bool
  | _, [] => false
  | prevIsWord, c :: cs =>
    (!prevIsWord &&
      refKeywords.any (fun kw =>
        startsWithChars kw.data (c :: cs) && refTail ((c :: cs).drop kw.data.length))) ||
    hasRefAux (isWordChar c) cs

/-- Model of `QueryAnalyzer._has_references`. -/
def hasReferences (q : String) : Bool :=
  hasRefAux false q.data

/-- Python whitespace-split `str.split()`: maximal runs of non-whitespace. -/
def wordsOf : List Char → List (List Char)
  | [] => []
  | c :: rest =>
    if c.isWhitespace then wordsOf rest
    else ((c :: rest).takeWhile (fun d => !d.isWhitespace)) ::
      wordsOf (rest.dropWhile (fun d => !d.isWhitespace))
termination_by l => l.length
decreasing_by
  · exact Nat.lt_succ_of_le (Nat.le_refl _)
  · exact Nat.lt_succ_of_le (length_dropWhile_le' _ _)

/-- Word count of `analyze` (`len(query.split())`). -/
def wordCount (q : String) : ℕ :=
  (wordsOf q.data).length

/-- Model of `re.search(r"\d+", query)` presence. -/
def hasNumbers (q : String) : Bool :=
  q.data.any Char.isDigit

/-- Cased character (has upper/lower forms) over the alphabets in use. -/
def isCasedChar (c : Char) : Bool :=
  c.isAlpha || (0x410 ≤ c.toNat && c.toNat ≤ 0x44F) || c = 'Ё' || c = 'ё'

/-- Uppercase character over the alphabets in use. -/
def isUpperCasedChar (c : Char) : Bool :=
  c.isUpper || (0x410 ≤ c.toNat && c.toNat ≤ 0x42F) || c = 'Ё'

/-- Python `str.isupper`: at least one cased character and no lowercase one. -/
def pyIsUpper (s : List Char) : Bool :=
  s.any isCasedChar && s.all (fun c => !isCasedChar c || isUpperCasedChar c)

/-- Query types of `app/schemas/router.py` (`QueryType`). -/
inductive QueryType where
  | exactReference
  | keywordSearch
  | semanticQuestion
  | hybridQuery
  | unclear
deriving DecidableEq, Repr

/-- Model of `QueryAnalyzer._classify_query_type`: first matching rule wins,
fixed confidence. -/
def classifyQueryType (q : String) (hasRefs hasQW hasNums : Bool) (wc : ℕ) :
    QueryType × ℚ :=
  if hasRefs then (.exactReference, 0.9)
  else if hasQW && decide (wc > 3) then (.semanticQuestion, 0.85)
  else if decide (wc ≤ 3) && (hasNums || pyIsUpper q.data) then (.keywordSearch, 0.75)
  else if decide (wc > 3) then (.hybridQuery, 0.6)
  else (.unclear, 0.3)

/-- Query type and confidence computed by `QueryAnalyzer.analyze` (the
feature-extraction part that classification depends on; the `except` fallback
to UNCLEAR cannot trigger in this pure model). -/
def analyzeTypeConf (q : String) : QueryType × ℚ :=
  classifyQueryType q (hasReferences q) (hasQuestionWords q) (hasNumbers q) (wordCount q)

/-! ## Routing strategy and manual overrides

Model of `RoutingStrategy.decide` (`app/services/router/routing_strategy.py`)
and the override step of `AdaptiveRouter.route`
(`app/services/router/adaptive_router.py`, lines 75–81). -/

/-- Routing decision record (`app/schemas/router.py`, `RoutingDecision`);
`selected_mode` is a plain string in the source. -/
structure RoutingDecision where
  selectedMode : String
  topK : ℕ
  scoreThreshold : ℚ
  expandWithNeighbors : Bool
  neighborHops : ℕ
  reasoning : String
  chatStrictness : String
  chatPurpose : String
deriving DecidableEq, Repr

/-- Model of `RoutingStrategy.decide`: one branch per query type with the
fixed parameter table and reasoning strings of the source. -/
def routingDecide (qt : QueryType) (strictness purpose : String) : RoutingDecision :=
  match qt with
  | .exactReference =>
    { selectedMode := "graph_enhanced", topK := 10, scoreThreshold := 0.2,
      expandWithNeighbors := true, neighborHops := 2,
      reasoning := "Detected exact reference (article/section number). Using graph-enhanced mode to find the reference and surrounding context.",
      chatStrictness := strictness, chatPurpose := purpose }
  | .keywordSearch =>
    { selectedMode := "sparse_only", topK := 15, scoreThreshold := 0.0,
      expandWithNeighbors := false, neighborHops := 0,
      reasoning := "Detected keyword search (short query with technical terms). Using BM25 sparse search for exact keyword matching.",
      chatStrictness := strictness, chatPurpose := purpose }
  | .semanticQuestion =>
    let topK := if strictness = "strict_docs_only" then 8 else 12
    let threshold : ℚ := if strictness = "strict_docs_only" then 0.4 else 0.3
    { selectedMode := "hybrid", topK := topK, scoreThreshold := threshold,
      expandWithNeighbors := true, neighborHops := 1,
      reasoning := "Detected semantic question. Using hybrid mode (dense + sparse) for best semantic understanding.",
      chatStrictness := strictness, chatPurpose := purpose }
  | .hybridQuery =>
    { selectedMode := "hybrid", topK := 10, scoreThreshold := 0.35,
      expandWithNeighbors := false, neighborHops := 0,
      reasoning := "General query with mixed characteristics. Using hybrid mode (dense + sparse fusion) for balanced results.",
      chatStrictness := strictness, chatPurpose := purpose }
  | .unclear =>
    { selectedMode := "hybrid", topK := 10, scoreThreshold := 0.3,
      expandWithNeighbors := false, neighborHops := 0,
      reasoning := "Query type unclear. Using hybrid mode as default safe strategy.",
      chatStrictness := strictness, chatPurpose := purpose }

/-- Model of the manual-override step of `AdaptiveRouter.route`: a truthy
`force_mode` replaces the mode and appends an annotation to the reasoning; a
truthy (nonzero) `force_top_k` replaces `top_k` only. -/
def applyOverrides (d : RoutingDecision) (forceMode : Option String)
    (forceTopK : Option ℕ) : RoutingDecision :=
  let d1 :=
    match forceMode with
    | some m =>
      if m.isEmpty then d
      else { d with selectedMode := m, reasoning := d.reasoning ++ " (Manually overridden)" }
    | none => d
  match forceTopK with
  | some k => if k = 0 then d1 else { d1 with topK := k }
  | none => d1

/-! ## Stable descending sort

Python's `sorted(l, key=..., reverse=True)` (and `list.sort` with the same
arguments) is a stable descending sort by the key.  A stable sort's output is
uniquely determined by that specification, so the structural insertion
formulation below is extensionally faithful to the source. -/

/-- Insert `x` into a stably-descending-sorted list: `x` goes before the first
element with a strictly smaller key and stays after earlier elements with an
equal key (the element being inserted came later in the original order). -/
def insertDescBy {α : Type} (key : α → ℚ) (x : α) : List α → List α
  | [] => [x]
  | y :: ys => if key y ≤ key x then x :: y :: ys else y :: insertDescBy key x ys

/-- Stable descending sort by a rational key (model of Python
`sorted(l, key=..., reverse=True)`). -/
def pySortDescBy {α : Type} (key : α → ℚ) : List α → List α
  | [] => []
  | x :: xs => insertDescBy key x (pySortDescBy key xs)

theorem insertDescBy_perm {α : Type} (key : α → ℚ) (x : α) :
    ∀ (l : List α), (insertDescBy key x l).Perm (x :: l) := by
  intro l
  induction l with
  | nil => simp [insertDescBy]
  | cons y ys ih =>
    rw [insertDescBy]
    split
    · exact List.Perm.refl _
    · exact ((ih.cons y).trans (List.Perm.swap x y ys))

theorem pySortDescBy_perm {α : Type} (key : α → ℚ) :
    ∀ (l : List α), (pySortDescBy key l).Perm l := by
  intro l
  induction l with
  | nil => exact List.Perm.refl _
  | cons x xs ih =>
    rw [pySortDescBy]
    exact (insertDescBy_perm key x (pySortDescBy key xs)).trans (ih.cons x)

theorem mem_insertDescBy {α : Type} (key : α → ℚ) (x : α) (l : List α) (z : α)
    (hz : z ∈ insertDescBy key x l) : z = x ∨ z ∈ l := by
  have := (insertDescBy_perm key x l).mem_iff.mp hz
  simpa using this

/-- Stability: sorting a list that is `Pairwise T` yields a list pairwise
ordered by "strictly larger key, or equal key and originally earlier". -/
theorem pySortDescBy_pairwise {α : Type} (key : α → ℚ) (T : α → α → Prop) :
    ∀ (l : List α), l.Pairwise T →
      (pySortDescBy key l).Pairwise
        (fun a b => key b < key a ∨ (key a = key b ∧ T a b)) := by
  have hins : ∀ (x : α) (l : List α),
      l.Pairwise (fun a b => key b < key a ∨ (key a = key b ∧ T a b)) →
      (∀ y ∈ l, T x y) →
      (insertDescBy key x l).Pairwise
        (fun a b => key b < key a ∨ (key a = key b ∧ T a b)) := by
    intro x l
    induction l with
    | nil => intro _ _; simp [insertDescBy]
    | cons y ys ih =>
      intro hpair hT
      have hdesc : ∀ z ∈ ys, key z ≤ key y := by
        intro z hz
        rcases (List.pairwise_cons.mp hpair).1 z hz with h | h
        · exact le_of_lt h
        · exact le_of_eq h.1.symm
      rw [insertDescBy]
      split
      · rename_i hle
        refine List.pairwise_cons.mpr ⟨?_, hpair⟩
        intro z hz
        rcases List.mem_cons.mp hz with rfl | hz'
        · rcases lt_or_eq_of_le hle with h | h
          · exact Or.inl h
          · exact Or.inr ⟨h.symm, hT _ (by simp)⟩
        · have hzy := hdesc z hz'
          rcases lt_or_eq_of_le (le_trans hzy hle) with h | h
          · exact Or.inl h
          · exact Or.inr ⟨h.symm, hT _ (by simp [hz'])⟩
      · rename_i hgt
        push_neg at hgt
        refine List.pairwise_cons.mpr ⟨?_, ?_⟩
        · intro z hz
          rcases mem_insertDescBy key x _ z hz with rfl | hz'
          · exact Or.inl hgt
          · exact (List.pairwise_cons.mp hpair).1 z hz'
        · exact ih (List.pairwise_cons.mp hpair).2 (fun z hz => hT z (by simp [hz]))
  intro l
  induction l with
  | nil => intro _; simp [pySortDescBy]
  | cons x xs ih =>
    intro hpair
    rw [pySortDescBy]
    refine hins x _ (ih (List.pairwise_cons.mp hpair).2) ?_
    intro y hy
    exact (List.pairwise_cons.mp hpair).1 y
      ((pySortDescBy_perm key xs).mem_iff.mp hy)

/-- Descending key order of the sorted output (special case of stability with
the trivial pairwise relation). -/
theorem pySortDescBy_sorted {α : Type} (key : α → ℚ) (l : List α) :
    (pySortDescBy key l).Pairwise (fun a b => key b ≤ key a) := by
  have := pySortDescBy_pairwise key (fun _ _ => True) l
    (List.pairwise_iff_forall_sublist.mpr (fun _ => trivial))
  refine this.imp ?_
  intro a b h
  rcases h with h | ⟨h, -⟩
  · exact le_of_lt h
  · exact le_of_eq h.symm

/-! ## Reciprocal rank fusion

Model of `ReciprocalRankFusion.fuse` (`app/services/retrieval/fusion.py`).
Result items are modelled with the fields the retrieval pipeline reads. -/

/-- Intermediate retrieval result (the dict passed between retrievers,
fusion, neighbor expansion and enrichment). -/
structure RItem where
  atomicUnitId : String
  score : ℚ
  source : String
  graphDistance : Option ℕ
deriving DecidableEq, Repr

/-- Add an RRF score contribution to an insertion-ordered association list
(model of `rrf_scores[item_id] += rrf_score` on a `defaultdict`). -/
def rrfAdd (acc : List (String × ℚ)) (id : String) (inc : ℚ) : List (String × ℚ) :=
  match acc with
  | [] => [(id, inc)]
  | (k, v) :: rest => if k = id then (k, v + inc) :: rest else (k, v) :: rrfAdd rest id inc

/-- Record an item's payload at its first occurrence (model of
`if item_id not in item_data: item_data[item_id] = item`). -/
def dataAdd (acc : List (String × RItem)) (id : String) (it : RItem) : List (String × RItem) :=
  match acc with
  | [] => [(id, it)]
  | (k, v) :: rest => if k = id then (k, v) :: rest else (k, v) :: dataAdd rest id it

/-- Accumulate one ranked list with 1-based ranks (inner loop of `fuse`). -/
def fuseList (kconst : ℕ) (weight : ℚ) :
    List RItem → ℕ → List (String × ℚ) × List (String × RItem) →
    List (String × ℚ) × List (String × RItem)
  | [], _, acc => acc
  | it :: rest, rank, (scores, data) =>
    fuseList kconst weight rest (rank + 1)
      (rrfAdd scores it.atomicUnitId (weight / (kconst + rank : ℚ)),
       dataAdd data it.atomicUnitId it)

/-- Accumulate all ranked lists with their weights (outer loop of `fuse`). -/
def fuseLists (kconst : ℕ) :
    List (List RItem × ℚ) → List (String × ℚ) × List (String × RItem) →
    List (String × ℚ) × List (String × RItem)
  | [], acc => acc
  | (l, w) :: rest, acc => fuseLists kconst rest (fuseList kconst w l 1 acc)

/-- Model of `ReciprocalRankFusion.fuse`: normalize weights, accumulate
weighted reciprocal-rank contributions, sort descending by fused score
(stable over first-insertion order), and emit each item's first-occurrence
payload with the fused score and `source = "fusion"`. -/
def fuse (kconst : ℕ) (rankedLists : List (List RItem)) (weights : Option (List ℚ)) :
    List RItem :=
  if rankedLists.isEmpty then []
  else
    let ws := match weights with
      | none => List.replicate rankedLists.length (1 : ℚ)
      | some w => w
    let wsum := ws.sum
    let wsn := ws.map (fun w => w / wsum)
    let sd := fuseLists kconst (rankedLists.zip wsn) ([], [])
    (pySortDescBy (fun p => p.2) sd.1).map (fun p =>
      match sd.2.find? (fun q => q.1 = p.1) with
      | some q => { q.2 with score := p.2, source := "fusion" }
      | none => { atomicUnitId := p.1, score := p.2, source := "fusion", graphDistance := none })

/-! ## BM25 search result selection

Model of steps 5–6 of `BM25Service.search` (`app/services/bm25_service.py`,
lines 158–174): rank all corpus indices by score (descending, ties stable in
index order), keep the first `top_k`, then keep only strictly positive
scores.  The scores themselves come from the external `rank_bm25` library
(`BM25Okapi.get_scores`), modelled as an opaque score list. -/

/-- Model of `top_indices = sorted(range(len(scores)), key=lambda i: scores[i],
reverse=True)[:top_k]`. -/
def bm25TopIndices (scores : List ℚ) (topK : ℕ) : List ℕ :=
  (pySortDescBy (fun i => scores.getD i 0) (List.range scores.length)).take topK

/-- Model of the result-formatting loop of `BM25Service.search`: keep only
strictly positive scores, pair each index with its document id. -/
def bm25SearchResults (scores : List ℚ) (docIds : List String) (topK : ℕ) :
    List (String × ℚ) :=
  (bm25TopIndices scores topK).filterMap (fun i =>
    let s := scores.getD i 0
    if 0 < s then some (docIds.getD i "", s) else none)

/-! ## Document graph builder

Model of `GraphBuilder._create_hierarchy_edges`
(`app/services/graph/graph_builder.py`, lines 88–128). -/

/-- Atomic unit row (`app/models/atomic_unit.py`), restricted to the fields
the retrieval core reads. -/
structure AtomicUnit where
  id : String
  tenantId : String
  chatId : String
  documentId : String
  text : List Char
  unitType : String
  sequence : ℕ
  level : ℕ
deriving DecidableEq, Repr

/-- Graph edge (`app/services/graph/node.py`, `GraphEdge`); the edge type is a
plain string constant; edge metadata is not read by any embedded operation. -/
structure GraphEdge where
  sourceId : String
  targetId : String
  edgeType : String
deriving DecidableEq, Repr

/-- Stack walk of `_create_hierarchy_edges`: pop entries whose level is ≥ the
current unit's level, emit a CONTAINS edge from the new stack top if any,
push the current unit. The stack is kept top-first. -/
def hierarchyEdgesAux : List (ℕ × String) → List AtomicUnit → List GraphEdge
  | _, [] => []
  | stack, u :: rest =>
    let stack' := stack.dropWhile (fun p => u.level ≤ p.1)
    match stack' with
    | [] => hierarchyEdgesAux ((u.level, u.id) :: stack') rest
    | (_, pid) :: _ =>
      { sourceId := pid, targetId := u.id, edgeType := "CONTAINS" } ::
        hierarchyEdgesAux ((u.level, u.id) :: stack') rest

/-- Model of `GraphBuilder._create_hierarchy_edges`. -/
def hierarchyEdges (units : List AtomicUnit) : List GraphEdge :=
  hierarchyEdgesAux [] units

/-! ## Graph store and neighbor BFS

Model of `GraphService.get_neighbors`
(`app/services/graph/graph_service.py`, lines 94–153). -/

/-- Stored graph node (value of the persisted `nodes` dict); only `node_id`
is read by the embedded operations. -/
structure GraphNodeRec where
  nodeId : String
deriving DecidableEq, Repr

/-- Persisted document graph row (`app/models/document_graph.py`), keyed by
`(tenant_id, chat_id)`; `nodes` is the stored id→node dict. -/
structure StoredGraph where
  tenantId : String
  chatId : String
  nodes : List (String × GraphNodeRec)
  edges : List GraphEdge
deriving DecidableEq, Repr

/-- Neighbor entry returned by `get_neighbors`
(`{"node": ..., "edge": ..., "distance": hop + 1}`). -/
structure NEntry where
  node : GraphNodeRec
  edge : GraphEdge
  distance : ℕ
deriving DecidableEq, Repr

/-- Optional edge-type filter of `get_neighbors`. -/
def edgeMatches (efilter : Option String) (e : GraphEdge) : Bool :=
  match efilter with
  | none => true
  | some t => e.edgeType = t

/-- Inner edge loop of `get_neighbors`: follow one edge out of `current`,
skipping already-visited targets; the target is marked visited and queued for
the next layer even when its node data is missing from the stored map, but an
entry is recorded only when the data is present. -/
def bfsEdgeStep (nodes : List (String × GraphNodeRec)) (efilter : Option String)
    (dist : ℕ) (current : String)
    (st : List NEntry × List String × List String) (e : GraphEdge) :
    List NEntry × List String × List String :=
  let (acc, visited, nextLayer) := st
  if e.sourceId = current && edgeMatches efilter e then
    if visited.contains e.targetId then st
    else
      let visited' := e.targetId :: visited
      let nextLayer' := nextLayer ++ [e.targetId]
      match nodes.find? (fun p => p.1 = e.targetId) with
      | some p => (acc ++ [⟨p.2, e, dist⟩], visited', nextLayer')
      | none => (acc, visited', nextLayer')
  else st

/-- One BFS round of `get_neighbors` (`for current_id in current_layer: for
edge in graph["edges"]: ...`). -/
def bfsLayer (edges : List GraphEdge) (nodes : List (String × GraphNodeRec))
    (efilter : Option String) (dist : ℕ) (layer : List String)
    (acc : List NEntry) (visited : List String) :
    List NEntry × List String × List String :=
  layer.foldl (fun st cur => edges.foldl (bfsEdgeStep nodes efilter dist cur) st)
    (acc, visited, [])

/-- Hop loop of `get_neighbors` (`for hop in range(hops)` with
`distance = hop + 1`). -/
def bfsRounds (edges : List GraphEdge) (nodes : List (String × GraphNodeRec))
    (efilter : Option String) :
    ℕ → ℕ → List String → List String → List NEntry → List NEntry
  | 0, _, _, _, acc => acc
  | r + 1, dist, layer, visited, acc =>
    let st := bfsLayer edges nodes efilter dist layer acc visited
    bfsRounds edges nodes efilter r (dist + 1) st.2.2 st.2.1 st.1

/-- Model of the BFS core of `GraphService.get_neighbors` (after the graph has
been loaded): `visited = {start}`, `current_layer = [start]`, `hops` rounds. -/
def getNeighbors (g : StoredGraph) (startId : String) (efilter : Option String)
    (hops : ℕ) : List NEntry :=
  bfsRounds g.edges g.nodes efilter hops 1 [startId] [startId] []

/-! ## Retrieval pipeline

Model of `HybridRetriever.retrieve` (`app/services/retrieval/hybrid_retriever.py`)
together with its components `SparseRetriever.retrieve`,
`DenseRetriever.retrieve`, `BM25Service.search`, `GraphService.get_neighbors`
and `ReciprocalRankFusion.fuse`.  External services appear as parameters: the
`rank_bm25` scorer as `scoreFn`, the embedding-plus-vector-store call as
`denseOutcome`, the NLTK stopword data as `sw`. -/

/-- Persisted BM25 index row (`app/models/bm25_index.py`), keyed by
`(tenant_id, chat_id)`, holding the parallel arrays. -/
structure BM25IndexRec where
  tenantId : String
  chatId : String
  corpusTokens : List (List (List Char))
  docIds : List String
deriving DecidableEq, Repr

/-- Database state visible to one retrieval request. -/
structure Db where
  units : List AtomicUnit
  bm25 : List BM25IndexRec
  graphs : List StoredGraph

/-- Model of `BM25Service._load_index`: select the index row matching both
`chat_id` and `tenant_id`. -/
def loadIndex (db : Db) (chatId tenantId : String) : Option BM25IndexRec :=
  db.bm25.find? (fun r => r.chatId = chatId && r.tenantId = tenantId)

/-- Model of `GraphService._load_graph`: select the graph row matching both
`chat_id` and `tenant_id`. -/
def loadGraph (db : Db) (chatId tenantId : String) : Option StoredGraph :=
  db.graphs.find? (fun g => g.chatId = chatId && g.tenantId = tenantId)

/-- Model of `BM25Service.search`: raises (`Except.error`) when no index
exists for the collection; otherwise tokenizes the query, scores every stored
document (external `BM25Okapi.get_scores`, modelled by `scoreFn`) and selects
results. -/
def bm25ServiceSearch (db : Db)
    (scoreFn : List (List (List Char)) → List (List Char) → List ℚ)
    (sw : List (List Char)) (chatId tenantId : String) (query : String)
    (topK : ℕ) : Except String (List (String × ℚ)) :=
  match loadIndex db chatId tenantId with
  | none => .error "BM25 index not found"
  | some idx =>
    let queryTokens := tokenize true sw query.data
    let scores := scoreFn idx.corpusTokens queryTokens
    .ok (bm25SearchResults scores idx.docIds topK)

/-- Model of `SparseRetriever.retrieve`: formats BM25 results with
`source = "sparse"`; its `except Exception` handler swallows every component
error (including a missing index) and returns the empty list
(`sparse_retriever.py`, lines 66–68). -/
def sparseRetrieve (db : Db)
    (scoreFn : List (List (List Char)) → List (List Char) → List ℚ)
    (sw : List (List Char)) (chatId tenantId : String) (query : String)
    (topK : ℕ) : List RItem :=
  match bm25ServiceSearch db scoreFn sw chatId tenantId query topK with
  | .ok rs => rs.map (fun r =>
      { atomicUnitId := r.1, score := r.2, source := "sparse", graphDistance := none })
  | .error _ => []

/-- Model of `DenseRetriever.retrieve`: the embedding and vector-store calls
are external (`denseOutcome`); results are formatted with `source = "dense"`;
its `except Exception` handler swallows every error and returns the empty
list (`dense_retriever.py`, lines 86–88). -/
def denseRetrieve (outcome : Except String (List RItem)) : List RItem :=
  match outcome with
  | .ok rs => rs.map (fun r => { r with source := "dense", graphDistance := none })
  | .error _ => []

/-- Model of `GraphService.get_neighbors` including its not-found error. -/
def getNeighborsSvc (db : Db) (chatId tenantId : String) (nodeId : String)
    (efilter : Option String) (hops : ℕ) : Except String (List NEntry) :=
  match loadGraph db chatId tenantId with
  | none => .error "Graph not found"
  | some g => .ok (getNeighbors g nodeId efilter hops)

/-- Model of `HybridRetriever._expand_with_neighbors`: add each original
result once (dedup by id across the whole expansion), add each newly seen
neighbor with score `parent_score * 0.8 ^ distance`, skip results whose
neighbor lookup fails (`except ...: continue`), then re-sort by score
descending (stable). -/
def expandNeighbors (db : Db) (chatId tenantId : String) (results : List RItem)
    (hops : ℕ) : List RItem :=
  let st := results.foldl (fun (st : List RItem × List String) result =>
    let (expanded, seen) := st
    let (expanded, seen) :=
      if seen.contains result.atomicUnitId then (expanded, seen)
      else (expanded ++ [result], seen ++ [result.atomicUnitId])
    match getNeighborsSvc db chatId tenantId result.atomicUnitId none hops with
    | .error _ => (expanded, seen)
    | .ok ns => ns.foldl (fun (st2 : List RItem × List String) n =>
        let (exp2, seen2) := st2
        if seen2.contains n.node.nodeId then st2
        else
          (exp2 ++ [{ atomicUnitId := n.node.nodeId,
                      score := result.score * (0.8 : ℚ) ^ n.distance,
                      source := "graph", graphDistance := some n.distance }],
           seen2 ++ [n.node.nodeId])) (expanded, seen)) ([], [])
  pySortDescBy (fun r => r.score) st.1

/-- Retrieved context (`app/schemas/retrieval.py`, `RetrievedContext`),
restricted to the fields built from non-optional data. -/
structure RetrievedContext where
  atomicUnitId : String
  text : List Char
  score : ℚ
  source : String
  documentId : String
  unitType : String
  sequence : ℕ
  graphDistance : Option ℕ
deriving DecidableEq, Repr

/-- Model of `HybridRetriever._enrich_results`: look each result's unit up by
id only — the `WHERE id IN unit_ids` select has no tenant filter — and drop
results whose unit is missing.  The Python id→unit dict over the selected
rows equals a direct lookup by id in the table; the `except` handler around
the DB read has no counterpart in the pure model. -/
def enrichResults (units : List AtomicUnit) (results : List RItem) :
    List RetrievedContext :=
  results.filterMap (fun r =>
    match units.find? (fun u => u.id = r.atomicUnitId) with
    | some u => some
      { atomicUnitId := r.atomicUnitId, text := u.text, score := r.score,
        source := r.source, documentId := u.documentId, unitType := u.unitType,
        sequence := u.sequence, graphDistance := r.graphDistance }
    | none => none)

/-- Retrieval modes (`app/schemas/retrieval.py`, `RetrievalMode`; a closed
enum, so the `else: raise InvalidRetrievalModeError` branch of `retrieve` is
unreachable for a validated request). -/
inductive RMode where
  | denseOnly
  | sparseOnly
  | hybridMode
  | graphEnhanced
deriving DecidableEq, Repr

/-- Validated retrieval request (`app/schemas/retrieval.py`,
`RetrievalRequest`). -/
structure RetrievalRequest where
  query : String
  mode : RMode
  topK : ℕ
  scoreThreshold : ℚ
  expandWithNeighbors : Bool
  neighborHops : ℕ
deriving Repr

/-- Model of `HybridRetriever._hybrid`: fetch `2 * top_k` from both
retrievers, fuse with RRF weights `[0.6, 0.4]` and constant 60, truncate to
`top_k`. -/
def hybridRetrieve (db : Db)
    (scoreFn : List (List (List Char)) → List (List Char) → List ℚ)
    (denseOutcome : ℕ → ℚ → Except String (List RItem))
    (sw : List (List Char)) (chatId tenantId : String) (query : String)
    (topK : ℕ) (threshold : ℚ) : List RItem :=
  let dense := denseRetrieve (denseOutcome (topK * 2) threshold)
  let sparse := sparseRetrieve db scoreFn sw chatId tenantId query (topK * 2)
  (fuse 60 [dense, sparse] (some [0.6, 0.4])).take topK

/-- Model of `HybridRetriever.retrieve` steps 1–4: mode dispatch, optional
neighbor expansion, enrichment, threshold filter, truncation. -/
def retrieveBody (db : Db)
    (scoreFn : List (List (List Char)) → List (List Char) → List ℚ)
    (denseOutcome : ℕ → ℚ → Except String (List RItem))
    (sw : List (List Char)) (chatId tenantId : String) (req : RetrievalRequest) :
    List RetrievedContext :=
  let results :=
    match req.mode with
    | .denseOnly => denseRetrieve (denseOutcome req.topK req.scoreThreshold)
    | .sparseOnly => sparseRetrieve db scoreFn sw chatId tenantId req.query req.topK
    | .hybridMode =>
      hybridRetrieve db scoreFn denseOutcome sw chatId tenantId req.query
        req.topK req.scoreThreshold
    | .graphEnhanced =>
      expandNeighbors db chatId tenantId
        (hybridRetrieve db scoreFn denseOutcome sw chatId tenantId req.query
          req.topK req.scoreThreshold)
        req.neighborHops
  let results :=
    if req.expandWithNeighbors ∧ req.mode ≠ RMode.graphEnhanced then
      expandNeighbors db chatId tenantId results req.neighborHops
    else results
  let ctxs := enrichResults db.units results
  (ctxs.filter (fun c => req.scoreThreshold ≤ c.score)).take req.topK

/-- Model of `HybridRetriever.retrieve` including its outer error contract:
the boolean records whether `db.rollback()` ran before a `RetrievalError`
propagated.  Every inner component catches its own exceptions
(`dense_retriever.py` 86–88, `sparse_retriever.py` 66–68,
`hybrid_retriever.py` 253–255 and 312–315), so for a validated request no
exception reaches the outer handler and the result is always a success. -/
def retrieve (db : Db)
    (scoreFn : List (List (List Char)) → List (List Char) → List ℚ)
    (denseOutcome : ℕ → ℚ → Except String (List RItem))
    (sw : List (List Char)) (chatId tenantId : String) (req : RetrievalRequest) :
    Bool × Except String (List RetrievedContext) :=
  (false, .ok (retrieveBody db scoreFn denseOutcome sw chatId tenantId req))

/-! ## Substring characterization (for C10) -/

theorem startsWithChars_iff (needle : List Char) :
    ∀ hay : List Char, startsWithChars needle hay = true ↔ ∃ post, needle ++ post = hay := by
  induction needle with
  | nil =>
    intro hay
    simp [startsWithChars]
  | cons n ns ih =>
    intro hay
    cases hay with
    | nil =>
      simp [startsWithChars]
    | cons h hs =>
      rw [startsWithChars]
      simp only [Bool.and_eq_true, decide_eq_true_eq, ih hs]
      constructor
      · rintro ⟨rfl, post, rfl⟩
        exact ⟨post, rfl⟩
      · rintro ⟨post, hpost⟩
        rw [List.cons_append] at hpost
        injection hpost with h1 h2
        exact ⟨h1, post, h2⟩

theorem occursIn_iff (needle : List Char) :
    ∀ hay : List Char, occursIn needle hay = true ↔
      ∃ pre post, pre ++ needle ++ post = hay := by
  intro hay
  induction hay with
  | nil =>
    rw [occursIn]
    constructor
    · intro h
      exact ⟨[], [], by simpa [List.isEmpty_iff] using h⟩
    · rintro ⟨pre, post, hp⟩
      rcases List.append_eq_nil.mp hp with ⟨h1, h2⟩
      rcases List.append_eq_nil.mp h1 with ⟨rfl, rfl⟩
      simp [occursIn]
  | cons h hs ih =>
    rw [occursIn]
    simp only [Bool.or_eq_true, startsWithChars_iff, ih]
    constructor
    · rintro (⟨post, hpost⟩ | ⟨pre, post, hp⟩)
      · exact ⟨[], post, by simpa using hpost⟩
      · exact ⟨h :: pre, post, by simp [hp]⟩
    · rintro ⟨pre, post, hp⟩
      cases pre with
      | nil => exact Or.inl ⟨post, by simpa using hp⟩
      | cons p ps =>
        rw [List.cons_append, List.cons_append] at hp
        injection hp with h1 h2
        exact Or.inr ⟨ps, post, by simpa using h2⟩

/-! ## Claim theorems -/

/-- C10: `_has_question_words` is substring-based: it is true exactly when
some word of the fixed multilingual list occurs as a substring of the
lowercased query or the query contains `?`; in particular the query
`"showcase"` (which merely embeds `"how"`) triggers it although none of its
whitespace-split words is a question word. -/
theorem question_words_substring :
    (∀ q : String, hasQuestionWords q = true ↔
      ((∃ w ∈ questionWords, ∃ pre post,
          pre ++ w.data ++ post = q.data.map charLower) ∨ '?' ∈ q.data)) ∧
    hasQuestionWords "showcase" = true ∧
    (∀ w ∈ wordsOf "showcase".data, ¬ w ∈ questionWords.map String.data) := by
  refine ⟨?_, by decide, by simp [wordsOf, questionWords]⟩
  intro q
  rw [hasQuestionWords]
  simp only [Bool.or_eq_true, List.any_eq_true, occursIn_iff, List.contains, List.elem_iff]

/-- C8: the query `"What is Article 27?"` is classified EXACT_REFERENCE with
confidence 0.9 (the reference rule fires first), and the routing table then
yields `graph_enhanced`, `top_k = 10`, threshold 0.2, neighbor expansion with
2 hops, for every chat configuration. -/
theorem analyze_route_article27 :
    analyzeTypeConf "What is Article 27?" = (QueryType.exactReference, 0.9) ∧
    (∀ strictness purpose : String,
      (routingDecide .exactReference strictness purpose).selectedMode = "graph_enhanced" ∧
      (routingDecide .exactReference strictness purpose).topK = 10 ∧
      (routingDecide .exactReference strictness purpose).scoreThreshold = 0.2 ∧
      (routingDecide .exactReference strictness purpose).expandWithNeighbors = true ∧
      (routingDecide .exactReference strictness purpose).neighborHops = 2) := by
  constructor
  · rw [analyzeTypeConf, classifyQueryType,
      show hasReferences "What is Article 27?" = true from by decide]
    simp
  · intro strictness purpose
    refine ⟨rfl, rfl, rfl, rfl, rfl⟩

/-- C9 counterexample: a routing decision overridden only through
`force_top_k` gets the new `top_k` but its reasoning string is left exactly
as computed — it is not annotated as overridden (no string ends in the
`" (Manually overridden)"` marker that `force_mode` would append). -/
theorem force_top_k_no_annotation_counterexample :
    (applyOverrides (routingDecide .unclear "strict_docs_only" "general") none (some 5)).topK = 5 ∧
    (applyOverrides (routingDecide .unclear "strict_docs_only" "general") none (some 5)).reasoning =
      (routingDecide .unclear "strict_docs_only" "general").reasoning ∧
    ¬ ∃ s : List Char, s ++ " (Manually overridden)".data =
      (applyOverrides (routingDecide .unclear "strict_docs_only" "general") none (some 5)).reasoning.data := by
  refine ⟨rfl, rfl, ?_⟩
  rintro ⟨s, hs⟩
  have hsfx : List.IsSuffix " (Manually overridden)".data
      (applyOverrides (routingDecide .unclear "strict_docs_only" "general") none (some 5)).reasoning.data :=
    ⟨s, hs⟩
  revert hsfx
  decide

/-- C9 (amended): a truthy `force_mode` replaces the selected mode and
appends `" (Manually overridden)"` to the reasoning; a truthy `force_top_k`
replaces `top_k` but leaves the reasoning untouched. -/
theorem overrides_amended (d : RoutingDecision) (m : String) (k : ℕ)
    (hm : m ≠ "") (hk : k ≠ 0) :
    (applyOverrides d (some m) none).selectedMode = m ∧
    (applyOverrides d (some m) none).reasoning = d.reasoning ++ " (Manually overridden)" ∧
    (applyOverrides d none (some k)).topK = k ∧
    (applyOverrides d none (some k)).reasoning = d.reasoning := by
  have hme : m.isEmpty = false :=
    Bool.eq_false_iff.mpr (fun h => hm ((String.isEmpty_iff m).mp h))
  refine ⟨?_, ?_, ?_, ?_⟩ <;>
    simp [applyOverrides, hme, hk]

theorem overrides_amended_witness :
    ("dense_only" : String) ≠ "" ∧ (5 : ℕ) ≠ 0 ∧
    ((applyOverrides (routingDecide .unclear "strict_docs_only" "general") (some "dense_only") none).selectedMode = "dense_only" ∧
     (applyOverrides (routingDecide .unclear "strict_docs_only" "general") (some "dense_only") none).reasoning =
       (routingDecide .unclear "strict_docs_only" "general").reasoning ++ " (Manually overridden)" ∧
     (applyOverrides (routingDecide .unclear "strict_docs_only" "general") none (some 5)).topK = 5 ∧
     (applyOverrides (routingDecide .unclear "strict_docs_only" "general") none (some 5)).reasoning =
       (routingDecide .unclear "strict_docs_only" "general").reasoning) :=
  ⟨by decide, by decide,
   overrides_amended (routingDecide .unclear "strict_docs_only" "general")
     "dense_only" 5 (by decide) (by decide)⟩

/-- C1 counterexample: with no BM25 index stored for the collection, a
`sparse_only` retrieval does not raise `RetrievalError` and performs no
rollback — it returns an empty result set as a success, because
`SparseRetriever.retrieve` swallows the `BM25IndexNotFoundError`. -/
theorem retrieve_missing_index_returns_ok_empty :
    retrieve ⟨[], [], []⟩ (fun _ _ => []) (fun _ _ => .error "vector store down") []
      "chat1" "tenantA"
      ⟨"payment terms", .sparseOnly, 10, 0, false, 0⟩ =
    (false, .ok []) := rfl

/-- C1 (amended): unrecoverable component failures do not surface: whenever
the collection has no sparse index, `sparse_only` retrieval returns the empty
list as a successful result, with no `RetrievalError` and no rollback — the
sparse retriever catches the component error and returns `[]`; only that
empty success reaches the caller. -/
theorem retrieve_sparse_failure_silent (db : Db)
    (scoreFn : List (List (List Char)) → List (List Char) → List ℚ)
    (denseOutcome : ℕ → ℚ → Except String (List RItem))
    (sw : List (List Char)) (chatId tenantId : String) (req : RetrievalRequest)
    (hmode : req.mode = .sparseOnly)
    (hidx : loadIndex db chatId tenantId = none) :
    retrieve db scoreFn denseOutcome sw chatId tenantId req = (false, .ok []) := by
  rw [retrieve, retrieveBody, hmode]
  rw [sparseRetrieve, bm25ServiceSearch, hidx]
  have hexp : ∀ hops, expandNeighbors db chatId tenantId [] hops = [] := by
    intro hops
    rw [expandNeighbors]
    simp [pySortDescBy]
  split <;> simp [hexp, enrichResults]

theorem retrieve_sparse_failure_silent_witness :
    (⟨"payment terms", RMode.sparseOnly, 10, 0, true, 2⟩ : RetrievalRequest).mode = .sparseOnly ∧
    loadIndex ⟨[], [], []⟩ "chat1" "tenantA" = none ∧
    retrieve ⟨[], [], []⟩ (fun _ _ => []) (fun _ _ => .error "down") [] "chat1" "tenantA"
      ⟨"payment terms", .sparseOnly, 10, 0, true, 2⟩ = (false, .ok []) :=
  ⟨rfl, rfl,
   retrieve_sparse_failure_silent ⟨[], [], []⟩ (fun _ _ => []) (fun _ _ => .error "down")
     [] "chat1" "tenantA" ⟨"payment terms", .sparseOnly, 10, 0, true, 2⟩ rfl rfl⟩

/-! ## C2: the fusion scenario -/

/-- Scenario input: item "a" from the first ranked list. -/
def itemA : RItem := ⟨"a", 0.9, "dense", none⟩

/-- Scenario input: item "b" as ranked second in the first list. -/
def itemB1 : RItem := ⟨"b", 0.8, "dense", none⟩

/-- Scenario input: item "b" as ranked first in the second list. -/
def itemB2 : RItem := ⟨"b", 7.5, "sparse", none⟩

/-- Scenario input: item "c" from the second ranked list. -/
def itemC : RItem := ⟨"c", 6.1, "sparse", none⟩

/-- C2 counterexample: fusing `[["a","b"], ["b","c"]]` with weights
`[0.6, 0.4]` and k = 60 does rank "b" first, but its fused score is
`0.6/62 + 0.4/61 = 307/18910` — "b" sits at rank 2 of the first list — not
the claimed `0.6/61 + 0.4/61`. -/
theorem fuse_scenario_score_counterexample :
    (fuse 60 [[itemA, itemB1], [itemB2, itemC]] (some [0.6, 0.4])).head? =
      some ⟨"b", 307/18910, "fusion", none⟩ ∧
    (307 : ℚ)/18910 ≠ 0.6/61 + 0.4/61 := by
  constructor
  · norm_num [fuse, fuseLists, fuseList, rrfAdd, dataAdd, pySortDescBy, insertDescBy,
      itemA, itemB1, itemB2, itemC, List.find?,
      show decide ("a" = "b") = false from rfl, show decide ("a" = "c") = false from rfl,
      show decide ("b" = "c") = false from rfl]
  · norm_num

/-- C2 (amended): the scenario fusion yields "b" first with fused score
`0.6/62 + 0.4/61` (its ranks are 2 and 1), then "a" with `0.6/61`, then "c"
with `0.4/62`; each of "a" and "c" appears exactly once, every output item is
tagged `source = "fusion"`, and "b" carries the payload of its first
occurrence. -/
theorem fuse_scenario_amended :
    fuse 60 [[itemA, itemB1], [itemB2, itemC]] (some [0.6, 0.4]) =
      [⟨"b", 307/18910, "fusion", none⟩, ⟨"a", 3/305, "fusion", none⟩,
       ⟨"c", 1/155, "fusion", none⟩] ∧
    (307 : ℚ)/18910 = 0.6/62 + 0.4/61 ∧ (3 : ℚ)/305 = 0.6/61 ∧ (1 : ℚ)/155 = 0.4/62 := by
  refine ⟨?_, by norm_num, by norm_num, by norm_num⟩
  norm_num [fuse, fuseLists, fuseList, rrfAdd, dataAdd, pySortDescBy, insertDescBy,
    itemA, itemB1, itemB2, itemC, List.find?,
    show decide ("a" = "b") = false from rfl, show decide ("a" = "c") = false from rfl,
    show decide ("b" = "c") = false from rfl]

/-! ## C5: the CONTAINS hierarchy is a forest -/

theorem dropWhile_head_false {α : Type} (p : α → Bool) :
    ∀ (l : List α) (c : α) (cs : List α), l.dropWhile p = c :: cs → p c = false := by
  intro l
  induction l with
  | nil => intro c cs h; simp [List.dropWhile] at h
  | cons a as ih =>
    intro c cs h
    rw [List.dropWhile_cons] at h
    split at h
    · exact ih c cs h
    · rename_i hpa
      injection h with h1 _
      subst h1
      exact Bool.eq_false_iff.mpr hpa

theorem nodup_map_inj {α β : Type} (f : α → β) :
    ∀ (l : List α), (l.map f).Nodup → ∀ a ∈ l, ∀ b ∈ l, f a = f b → a = b := by
  intro l
  induction l with
  | nil => intro _ a ha; simp at ha
  | cons x xs ih =>
    intro hnd a ha b hb hf
    rw [List.map_cons, List.nodup_cons] at hnd
    rcases List.mem_cons.mp ha with rfl | ha' <;> rcases List.mem_cons.mp hb with rfl | hb'
    · rfl
    · exact absurd (hf ▸ List.mem_map_of_mem f hb') hnd.1
    · exact absurd (hf ▸ List.mem_map_of_mem f ha') hnd.1
    · exact ih hnd.2 a ha' b hb' hf

/-- Level of the unit with a given id (0 when absent); with unique ids this
is the level field of that unit. -/
def levelOf (units : List AtomicUnit) (x : String) : ℕ :=
  ((units.find? (fun u => u.id = x)).map AtomicUnit.level).getD 0

theorem find?_of_mem_nodup (units : List AtomicUnit)
    (hnd : (units.map AtomicUnit.id).Nodup) (s : AtomicUnit) (hs : s ∈ units) :
    units.find? (fun u => u.id = s.id) = some s := by
  cases hfind : units.find? (fun u => u.id = s.id) with
  | none =>
    have := List.find?_eq_none.mp hfind s hs
    simp at this
  | some w =>
    have hw : w ∈ units := List.mem_of_find?_eq_some hfind
    have hid : w.id = s.id := by simpa using List.find?_some hfind
    rw [nodup_map_inj AtomicUnit.id units hnd w hw s hs hid]

theorem levelOf_eq (units : List AtomicUnit)
    (hnd : (units.map AtomicUnit.id).Nodup) (s : AtomicUnit) (hs : s ∈ units) :
    levelOf units s.id = s.level := by
  rw [levelOf, find?_of_mem_nodup units hnd s hs]
  rfl

/-- Each CONTAINS edge connects two units of the input and strictly increases
the level (stack entries always come from already-seen units, and popping
leaves a stack top of strictly smaller level than the current unit). -/
theorem hierAux_spec (units₀ : List AtomicUnit) :
    ∀ (units : List AtomicUnit) (stack : List (ℕ × String)),
      (∀ p ∈ stack, ∃ v ∈ units₀, v.level = p.1 ∧ v.id = p.2) →
      (∀ u ∈ units, u ∈ units₀) →
      ∀ e ∈ hierarchyEdgesAux stack units,
        e.edgeType = "CONTAINS" ∧
        ∃ s ∈ units₀, ∃ t ∈ units₀,
          s.id = e.sourceId ∧ t.id = e.targetId ∧ s.level < t.level := by
  intro units
  induction units with
  | nil => intro stack _ _ e he; simp [hierarchyEdgesAux] at he
  | cons u rest ih =>
    intro stack hstack hsub e he
    rw [hierarchyEdgesAux] at he
    have hstack' : ∀ p ∈ stack.dropWhile (fun p => u.level ≤ p.1),
        ∃ v ∈ units₀, v.level = p.1 ∧ v.id = p.2 :=
      fun p hp => hstack p ((stack.dropWhile_sublist _).subset hp)
    have hu : u ∈ units₀ := hsub u (by simp)
    have hsub' : ∀ w ∈ rest, w ∈ units₀ := fun w hw => hsub w (by simp [hw])
    revert he
    cases hsp : stack.dropWhile (fun p => u.level ≤ p.1) with
    | nil =>
      intro he
      refine ih ((u.level, u.id) :: []) ?_ hsub' e he
      intro p hp
      rcases List.mem_cons.mp hp with rfl | hp'
      · exact ⟨u, hu, rfl, rfl⟩
      · simp at hp'
    | cons top tail =>
      intro he
      rcases List.mem_cons.mp he with rfl | he'
      · refine ⟨rfl, ?_⟩
        rcases hstack' top (hsp ▸ List.mem_cons_self top tail) with ⟨v, hv, hlv, hidv⟩
        have htop : (u.level ≤ top.1) = false := by
          simpa using dropWhile_head_false _ stack top tail hsp
        refine ⟨v, hv, u, hu, by simp [hidv], rfl, ?_⟩
        rw [hlv]
        simpa using Nat.lt_of_not_le (by simpa using htop)
      · refine ih ((u.level, u.id) :: top :: tail) ?_ hsub' e he'
        intro p hp
        rcases List.mem_cons.mp hp with rfl | hp'
        · exact ⟨u, hu, rfl, rfl⟩
        · exact hstack' p (hsp ▸ hp')

/-- CONTAINS edge targets are, in order, a sublist of the unit id sequence:
each unit receives at most one CONTAINS parent edge. -/
theorem hierAux_targets :
    ∀ (units : List AtomicUnit) (stack : List (ℕ × String)),
      List.Sublist ((hierarchyEdgesAux stack units).map GraphEdge.targetId)
        (units.map AtomicUnit.id) := by
  intro units
  induction units with
  | nil => intro stack; simp [hierarchyEdgesAux]
  | cons u rest ih =>
    intro stack
    rw [hierarchyEdgesAux]
    cases hsp : stack.dropWhile (fun p => u.level ≤ p.1) with
    | nil => exact List.Sublist.cons u.id (ih _)
    | cons top tail => exact List.Sublist.cons₂ u.id (ih _)

/-- Edge relation induced by a list of edges on node ids. -/
def edgeRel (edges : List GraphEdge) (a b : String) : Prop :=
  ∃ e ∈ edges, e.sourceId = a ∧ e.targetId = b

/-- C5: for units sorted by sequence with unique ids, every CONTAINS edge of
the graph builder goes from a strictly lower level to a strictly higher one,
each unit has at most one CONTAINS parent, and the CONTAINS edge set has no
cycles — a forest. -/
theorem contains_forest (units : List AtomicUnit)
    (hseq : units.Pairwise (fun a b => a.sequence ≤ b.sequence))
    (hnd : (units.map AtomicUnit.id).Nodup) :
    (∀ e ∈ hierarchyEdges units,
       e.edgeType = "CONTAINS" ∧
       levelOf units e.sourceId < levelOf units e.targetId) ∧
    ((hierarchyEdges units).map GraphEdge.targetId).Nodup ∧
    (∀ x : String, ¬ Relation.TransGen (edgeRel (hierarchyEdges units)) x x) := by
  have hspec : ∀ e ∈ hierarchyEdges units,
      e.edgeType = "CONTAINS" ∧
      levelOf units e.sourceId < levelOf units e.targetId := by
    intro e he
    rcases hierAux_spec units units [] (by simp) (fun u hu => hu) e he with
      ⟨hty, s, hs, t, ht, hsid, htid, hlt⟩
    refine ⟨hty, ?_⟩
    rw [← hsid, ← htid, levelOf_eq units hnd s hs, levelOf_eq units hnd t ht]
    exact hlt
  refine ⟨hspec, (hierAux_targets units []).nodup hnd, ?_⟩
  have hstep : ∀ a b, edgeRel (hierarchyEdges units) a b → levelOf units a < levelOf units b := by
    rintro a b ⟨e, he, rfl, rfl⟩
    exact (hspec e he).2
  intro x hx
  have hmono : ∀ a b, Relation.TransGen (edgeRel (hierarchyEdges units)) a b →
      levelOf units a < levelOf units b := by
    intro a b hab
    induction hab with
    | single h => exact hstep _ _ h
    | tail _ h ihh => exact ihh.trans (hstep _ _ h)
  exact absurd (hmono x x hx) (lt_irrefl _)

/-- Concrete input for C5: four units forming a section/paragraph hierarchy
with a level pop. -/
def forestUnits : List AtomicUnit :=
  [⟨"u0", "tA", "c1", "d1", "Heading 1".data, "heading", 0, 0⟩,
   ⟨"u1", "tA", "c1", "d1", "First paragraph".data, "paragraph", 1, 1⟩,
   ⟨"u2", "tA", "c1", "d1", "Nested row".data, "table_row", 2, 2⟩,
   ⟨"u3", "tA", "c1", "d1", "Second paragraph".data, "paragraph", 3, 1⟩]

theorem contains_forest_witness :
    forestUnits.Pairwise (fun a b => a.sequence ≤ b.sequence) ∧
    (forestUnits.map AtomicUnit.id).Nodup ∧
    ((∀ e ∈ hierarchyEdges forestUnits,
        e.edgeType = "CONTAINS" ∧
        levelOf forestUnits e.sourceId < levelOf forestUnits e.targetId) ∧
     ((hierarchyEdges forestUnits).map GraphEdge.targetId).Nodup ∧
     (∀ x : String, ¬ Relation.TransGen (edgeRel (hierarchyEdges forestUnits)) x x)) :=
  ⟨by decide, by decide, contains_forest forestUnits (by decide) (by decide)⟩

/-! ## C7: neighbor BFS bounds -/

/-- Invariant of the BFS accumulator: the start node is visited; every
recorded entry points at a non-start node, has distance between 1 and
`bound`, a visited target, and node data keyed by its target; recorded
targets are pairwise distinct; distances appear in non-decreasing order. -/
def BfsInv (start : String) (bound : ℕ) (acc : List NEntry) (visited : List String) : Prop :=
  start ∈ visited ∧
  (∀ en ∈ acc, en.edge.targetId ≠ start ∧ 1 ≤ en.distance ∧ en.distance ≤ bound ∧
     en.edge.targetId ∈ visited ∧ en.node.nodeId = en.edge.targetId) ∧
  (acc.map (fun en => en.edge.targetId)).Nodup ∧
  acc.Pairwise (fun a b => a.distance ≤ b.distance)

theorem bfsInv_mono (start : String) {b b' : ℕ} (h : b ≤ b') {acc visited}
    (hinv : BfsInv start b acc visited) : BfsInv start b' acc visited := by
  rcases hinv with ⟨h1, h2, h3, h4⟩
  refine ⟨h1, ?_, h3, h4⟩
  intro en hen
  rcases h2 en hen with ⟨a1, a2, a3, a4, a5⟩
  exact ⟨a1, a2, a3.trans h, a4, a5⟩

theorem bfsEdgeStep_inv (nodes : List (String × GraphNodeRec)) (efilter : Option String)
    (dist : ℕ) (cur : String) (start : String)
    (hkeys : ∀ p ∈ nodes, p.2.nodeId = p.1) (hdist : 1 ≤ dist)
    (st : List NEntry × List String × List String) (e : GraphEdge)
    (hinv : BfsInv start dist st.1 st.2.1) :
    BfsInv start dist (bfsEdgeStep nodes efilter dist cur st e).1
      (bfsEdgeStep nodes efilter dist cur st e).2.1 := by
  obtain ⟨acc, visited, nl⟩ := st
  rcases hinv with ⟨h1, h2, h3, h4⟩
  rw [bfsEdgeStep]
  split
  · split
    · exact ⟨h1, h2, h3, h4⟩
    · rename_i hvis
      have hnotmem : e.targetId ∉ visited := by
        intro hmem
        exact hvis (by simpa [List.contains, List.elem_iff] using hmem)
      cases hfind : nodes.find? (fun p => p.1 = e.targetId) with
      | some p =>
        refine ⟨by simp [h1], ?_, ?_, ?_⟩
        · intro en hen
          rcases List.mem_append.mp hen with hen' | hen'
          · rcases h2 en hen' with ⟨a1, a2, a3, a4, a5⟩
            exact ⟨a1, a2, a3, by simp [a4], a5⟩
          · rcases List.mem_singleton.mp hen' with rfl
            refine ⟨fun hc => hnotmem (hc ▸ h1), hdist, le_refl _, by simp, ?_⟩
            have hp : p ∈ nodes := List.mem_of_find?_eq_some hfind
            have hpk : p.1 = e.targetId := by simpa using List.find?_some hfind
            simpa [hpk] using hkeys p hp
        · rw [List.map_append, List.nodup_append]
          refine ⟨h3, by simp, ?_⟩
          intro x hx hx2
          rcases List.mem_map.mp hx with ⟨en, hen, hx'⟩
          have hxv : x ∈ visited := hx' ▸ (h2 en hen).2.2.2.1
          have : x = e.targetId := by simpa using hx2
          exact hnotmem (this ▸ hxv)
        · rw [List.pairwise_append]
          refine ⟨h4, by simp, ?_⟩
          intro a ha b hb
          have hb' : b = ⟨p.2, e, dist⟩ := by simpa using hb
          rw [hb']
          exact (h2 a ha).2.2.1
      | none =>
        refine ⟨by simp [h1], ?_, h3, h4⟩
        intro en hen
        rcases h2 en hen with ⟨a1, a2, a3, a4, a5⟩
        exact ⟨a1, a2, a3, by simp [a4], a5⟩
  · exact ⟨h1, h2, h3, h4⟩

theorem bfsLayer_inv (edges : List GraphEdge) (nodes : List (String × GraphNodeRec))
    (efilter : Option String) (dist : ℕ) (start : String)
    (hkeys : ∀ p ∈ nodes, p.2.nodeId = p.1) (hdist : 1 ≤ dist)
    (layer : List String) (acc : List NEntry) (visited : List String)
    (hinv : BfsInv start dist acc visited) :
    BfsInv start dist (bfsLayer edges nodes efilter dist layer acc visited).1
      (bfsLayer edges nodes efilter dist layer acc visited).2.1 := by
  rw [bfsLayer]
  generalize hst0 : ((acc, visited, ([] : List String)) :
    List NEntry × List String × List String) = st0
  have hinv0 : BfsInv start dist st0.1 st0.2.1 := by rw [← hst0]; exact hinv
  clear hst0 hinv
  induction layer generalizing st0 with
  | nil => simpa using hinv0
  | cons cur rest ih =>
    rw [List.foldl_cons]
    refine ih _ ?_
    clear ih
    induction edges generalizing st0 with
    | nil => simpa using hinv0
    | cons e es ihe =>
      rw [List.foldl_cons]
      exact ihe _ (bfsEdgeStep_inv nodes efilter dist cur start hkeys hdist st0 e hinv0)

theorem bfsRounds_inv (edges : List GraphEdge) (nodes : List (String × GraphNodeRec))
    (efilter : Option String) (start : String)
    (hkeys : ∀ p ∈ nodes, p.2.nodeId = p.1) :
    ∀ (r d : ℕ) (layer : List String) (visited : List String) (acc : List NEntry),
      BfsInv start d acc visited →
      ∃ visited', BfsInv start (d + r)
        (bfsRounds edges nodes efilter r (d + 1) layer visited acc) visited' := by
  intro r
  induction r with
  | zero =>
    intro d layer visited acc hinv
    refine ⟨visited, ?_⟩
    rw [Nat.add_zero]
    exact hinv
  | succ n ih =>
    intro d layer visited acc hinv
    rw [bfsRounds]
    have hstep := bfsLayer_inv edges nodes efilter (d + 1) start hkeys (Nat.le_add_left 1 d)
      layer acc visited (bfsInv_mono start (Nat.le_succ d) hinv)
    rcases ih (d + 1) (bfsLayer edges nodes efilter (d + 1) layer acc visited).2.2
      (bfsLayer edges nodes efilter (d + 1) layer acc visited).2.1
      (bfsLayer edges nodes efilter (d + 1) layer acc visited).1 hstep with ⟨visited', hres⟩
    refine ⟨visited', ?_⟩
    have harith : d + (n + 1) = (d + 1) + n := by omega
    rw [harith]
    exact hres

/-- C7: `get_neighbors` never returns the start node, every returned distance
lies in `[1, hops]`, no node is returned twice (each node appears only for
the round in which BFS first discovered it), and entries are listed in
non-decreasing distance order.  The hypothesis states that the stored node
map is keyed by the nodes' own ids, which `GraphService.build_graph`
guarantees for every persisted graph. -/
theorem neighbors_bfs (g : StoredGraph) (startId : String) (efilter : Option String)
    (hops : ℕ) (hkeys : ∀ p ∈ g.nodes, p.2.nodeId = p.1) :
    (∀ en ∈ getNeighbors g startId efilter hops,
       en.node.nodeId ≠ startId ∧ en.edge.targetId ≠ startId ∧
       1 ≤ en.distance ∧ en.distance ≤ hops) ∧
    ((getNeighbors g startId efilter hops).map (fun en => en.edge.targetId)).Nodup ∧
    (getNeighbors g startId efilter hops).Pairwise (fun a b => a.distance ≤ b.distance) := by
  have h0 : BfsInv startId 0 [] [startId] := by
    refine ⟨by simp, by simp, by simp, by simp⟩
  rcases bfsRounds_inv g.edges g.nodes efilter startId hkeys hops 0 [startId] [startId] [] h0
    with ⟨visited', hinv⟩
  rw [Nat.zero_add] at hinv
  rcases hinv with ⟨_, h2, h3, h4⟩
  rw [getNeighbors]
  refine ⟨?_, h3, h4⟩
  intro en hen
  rcases h2 en hen with ⟨a1, a2, a3, _, a5⟩
  exact ⟨a5 ▸ a1, a1, a2, a3⟩

/-- Concrete stored graph for C7: a CONTAINS/NEXT chain with a cycle back to
the start. -/
def bfsGraph : StoredGraph :=
  { tenantId := "tA", chatId := "c1",
    nodes := [("n1", ⟨"n1"⟩), ("n2", ⟨"n2"⟩), ("n3", ⟨"n3"⟩)],
    edges := [⟨"n1", "n2", "CONTAINS"⟩, ⟨"n2", "n3", "NEXT"⟩, ⟨"n3", "n1", "REFERS_TO"⟩,
              ⟨"n2", "n1", "NEXT"⟩] }

theorem neighbors_bfs_witness :
    (∀ p ∈ bfsGraph.nodes, p.2.nodeId = p.1) ∧
    ((∀ en ∈ getNeighbors bfsGraph "n1" none 2,
        en.node.nodeId ≠ "n1" ∧ en.edge.targetId ≠ "n1" ∧
        1 ≤ en.distance ∧ en.distance ≤ 2) ∧
     ((getNeighbors bfsGraph "n1" none 2).map (fun en => en.edge.targetId)).Nodup ∧
     (getNeighbors bfsGraph "n1" none 2).Pairwise (fun a b => a.distance ≤ b.distance)) :=
  ⟨by decide, neighbors_bfs bfsGraph "n1" none 2 (by decide)⟩

/-! ## C4: BM25 result selection -/

/-- C4: for every stored score list, document-id list and `top_k`, BM25
search returns at most `top_k` results, every returned score is strictly
positive, scores are non-increasing along the result list, the selected index
sequence breaks score ties by ascending corpus index (stable), and repeated
evaluation on the same stored state gives the same list.  The score values
come from the external `rank_bm25` scorer, over which the statement is
universally quantified. -/
theorem bm25_search_properties (scores : List ℚ) (docIds : List String) (topK : ℕ) :
    (bm25SearchResults scores docIds topK).length ≤ topK ∧
    (∀ r ∈ bm25SearchResults scores docIds topK, 0 < r.2) ∧
    (bm25SearchResults scores docIds topK).Pairwise (fun a b => b.2 ≤ a.2) ∧
    ((bm25TopIndices scores topK).filter (fun i => decide (0 < scores.getD i 0))).Pairwise
      (fun i j => scores.getD j 0 < scores.getD i 0 ∨
        (scores.getD i 0 = scores.getD j 0 ∧ i < j)) ∧
    bm25SearchResults scores docIds topK = bm25SearchResults scores docIds topK := by
  have hsorted : (pySortDescBy (fun i => scores.getD i 0) (List.range scores.length)).Pairwise
      (fun i j => scores.getD j 0 < scores.getD i 0 ∨
        (scores.getD i 0 = scores.getD j 0 ∧ i < j)) := by
    have := pySortDescBy_pairwise (fun i => scores.getD i 0) (· < ·)
      (List.range scores.length) (List.pairwise_lt_range scores.length)
    exact this
  have htake : (bm25TopIndices scores topK).Pairwise
      (fun i j => scores.getD j 0 < scores.getD i 0 ∨
        (scores.getD i 0 = scores.getD j 0 ∧ i < j)) := by
    rw [bm25TopIndices]
    exact hsorted.sublist (List.take_sublist _ _)
  have hfilterPW : ((bm25TopIndices scores topK).filter
      (fun i => decide (0 < scores.getD i 0))).Pairwise
      (fun i j => scores.getD j 0 < scores.getD i 0 ∨
        (scores.getD i 0 = scores.getD j 0 ∧ i < j)) :=
    htake.sublist (List.filter_sublist _)
  refine ⟨?_, ?_, ?_, hfilterPW, rfl⟩
  · rw [bm25SearchResults]
    calc ((bm25TopIndices scores topK).filterMap _).length
        ≤ (bm25TopIndices scores topK).length := List.length_filterMap_le _ _
      _ ≤ topK := by
          rw [bm25TopIndices]
          exact (List.length_take _ _).trans_le (min_le_left _ _)
  · intro r hr
    rw [bm25SearchResults] at hr
    rcases List.mem_filterMap.mp hr with ⟨i, _, hfi⟩
    dsimp only at hfi
    split at hfi
    · rename_i hpos
      injection hfi with hfi'
      rw [← hfi']
      exact hpos
    · exact absurd hfi (by simp)
  · rw [bm25SearchResults]
    refine List.Pairwise.filterMap _ ?_ htake
    intro i j hij b hb b' hb'
    dsimp only at hb hb'
    have hscore : b.2 = scores.getD i 0 := by
      split at hb
      · simp only [Option.mem_some_iff] at hb
        subst hb
        rfl
      · simp at hb
    have hscore' : b'.2 = scores.getD j 0 := by
      split at hb'
      · simp only [Option.mem_some_iff] at hb'
        subst hb'
        rfl
      · simp at hb'
    rw [hscore, hscore']
    rcases hij with h | ⟨h, -⟩
    · exact le_of_lt h
    · exact le_of_eq h.symm

/-! ## C3: tenant isolation

Ownership of result ids is traced through every pipeline stage: BM25 results
stay inside the tenant-keyed index, fusion only permutes input ids, neighbor
expansion only adds node ids of the tenant-keyed graph, and enrichment (which
queries by id with no tenant filter) resolves each id to its unique owner. -/

theorem getD_mem {α : Type} (l : List α) (i : ℕ) (d : α) (h : i < l.length) :
    l.getD i d ∈ l := by
  rw [List.getD_eq_getElem l d h]
  exact List.getElem_mem h

theorem rrfAdd_keys (P : String → Prop) :
    ∀ (acc : List (String × ℚ)) (id : String) (inc : ℚ),
      (∀ p ∈ acc, P p.1) → P id → ∀ p ∈ rrfAdd acc id inc, P p.1 := by
  intro acc
  induction acc with
  | nil =>
    intro id inc _ hid p hp
    rcases List.mem_singleton.mp hp with rfl
    exact hid
  | cons q rest ih =>
    intro id inc hacc hid p hp
    rw [rrfAdd] at hp
    split at hp
    · rcases List.mem_cons.mp hp with heq | hp'
      · rw [heq]
        exact hacc q (by simp)
      · exact hacc p (by simp [hp'])
    · rcases List.mem_cons.mp hp with heq | hp'
      · rw [heq]
        exact hacc q (by simp)
      · exact ih id inc (fun r hr => hacc r (by simp [hr])) hid p hp'

theorem dataAdd_vals (Q : RItem → Prop) :
    ∀ (acc : List (String × RItem)) (id : String) (it : RItem),
      (∀ q ∈ acc, Q q.2) → Q it → ∀ q ∈ dataAdd acc id it, Q q.2 := by
  intro acc
  induction acc with
  | nil =>
    intro id it _ hit q hq
    rcases List.mem_singleton.mp hq with rfl
    exact hit
  | cons r rest ih =>
    intro id it hacc hit q hq
    rw [dataAdd] at hq
    split at hq
    · exact hacc q hq
    · rcases List.mem_cons.mp hq with heq | hq'
      · rw [heq]
        exact hacc r (by simp)
      · exact ih id it (fun s hs => hacc s (by simp [hs])) hit q hq'

theorem fuseList_inv (P : String → Prop) (kconst : ℕ) (w : ℚ) :
    ∀ (l : List RItem) (rank : ℕ) (scores : List (String × ℚ)) (data : List (String × RItem)),
      (∀ it ∈ l, P it.atomicUnitId) →
      (∀ p ∈ scores, P p.1) → (∀ q ∈ data, P q.2.atomicUnitId) →
      (∀ p ∈ (fuseList kconst w l rank (scores, data)).1, P p.1) ∧
      (∀ q ∈ (fuseList kconst w l rank (scores, data)).2, P q.2.atomicUnitId) := by
  intro l
  induction l with
  | nil => intro rank scores data _ hs hd; exact ⟨hs, hd⟩
  | cons it rest ih =>
    intro rank scores data hl hs hd
    rw [fuseList]
    exact ih (rank + 1) _ _ (fun x hx => hl x (by simp [hx]))
      (rrfAdd_keys P scores it.atomicUnitId _ hs (hl it (by simp)))
      (dataAdd_vals (fun r => P r.atomicUnitId) data it.atomicUnitId it hd (hl it (by simp)))

theorem fuseLists_inv (P : String → Prop) (kconst : ℕ) :
    ∀ (ls : List (List RItem × ℚ)) (scores : List (String × ℚ)) (data : List (String × RItem)),
      (∀ lw ∈ ls, ∀ it ∈ lw.1, P it.atomicUnitId) →
      (∀ p ∈ scores, P p.1) → (∀ q ∈ data, P q.2.atomicUnitId) →
      (∀ p ∈ (fuseLists kconst ls (scores, data)).1, P p.1) ∧
      (∀ q ∈ (fuseLists kconst ls (scores, data)).2, P q.2.atomicUnitId) := by
  intro ls
  induction ls with
  | nil => intro scores data _ hs hd; exact ⟨hs, hd⟩
  | cons lw rest ih =>
    intro scores data hls hs hd
    rw [fuseLists]
    rcases fuseList_inv P kconst lw.2 lw.1 1 scores data (hls lw (by simp)) hs hd with ⟨hs', hd'⟩
    exact ih _ _ (fun x hx => hls x (by simp [hx])) hs' hd'

/-- Fusion only rearranges ids: every output item's id satisfies any
predicate holding for all input items' ids. -/
theorem fuse_ids (P : String → Prop) (kconst : ℕ) (rankedLists : List (List RItem))
    (weights : Option (List ℚ))
    (hin : ∀ l ∈ rankedLists, ∀ it ∈ l, P it.atomicUnitId) :
    ∀ x ∈ fuse kconst rankedLists weights, P x.atomicUnitId := by
  intro x hx
  rw [fuse.eq_def] at hx
  split at hx
  · simp at hx
  · dsimp only at hx
    rcases List.mem_map.mp hx with ⟨p, hp, rfl⟩
    have hpmem := (pySortDescBy_perm (fun p : String × ℚ => p.2) _).mem_iff.mp hp
    have hzip : ∀ wsn : List ℚ, ∀ lw ∈ rankedLists.zip wsn, ∀ it ∈ lw.1, P it.atomicUnitId :=
      fun _ lw hlw it hit => hin lw.1 (List.of_mem_zip hlw).1 it hit
    split
    · rename_i q hfind
      exact (fuseLists_inv P kconst _ [] [] (hzip _) (by simp) (by simp)).2 q
        (List.mem_of_find?_eq_some hfind)
    · exact (fuseLists_inv P kconst _ [] [] (hzip _) (by simp) (by simp)).1 p hpmem

/-- BFS entries carry node data taken from the stored node map. -/
theorem bfs_nodes_from_map (edges : List GraphEdge) (nodes : List (String × GraphNodeRec))
    (efilter : Option String) :
    ∀ (r dist : ℕ) (layer visited : List String) (acc : List NEntry),
      (∀ en ∈ acc, ∃ p ∈ nodes, p.2 = en.node) →
      ∀ en ∈ bfsRounds edges nodes efilter r dist layer visited acc,
        ∃ p ∈ nodes, p.2 = en.node := by
  have hstep : ∀ (dist : ℕ) (cur : String) (st : List NEntry × List String × List String)
      (e : GraphEdge), (∀ en ∈ st.1, ∃ p ∈ nodes, p.2 = en.node) →
      ∀ en ∈ (bfsEdgeStep nodes efilter dist cur st e).1, ∃ p ∈ nodes, p.2 = en.node := by
    intro dist cur st e hst
    obtain ⟨acc, visited, nl⟩ := st
    rw [bfsEdgeStep]
    split
    · split
      · exact hst
      · cases hfind : nodes.find? (fun p => p.1 = e.targetId) with
        | some p =>
          intro en hen
          rcases List.mem_append.mp hen with hen' | hen'
          · exact hst en hen'
          · rcases List.mem_singleton.mp hen' with rfl
            exact ⟨p, List.mem_of_find?_eq_some hfind, rfl⟩
        | none => exact hst
    · exact hst
  have hlayer : ∀ (dist : ℕ) (layer : List String) (acc : List NEntry) (visited : List String),
      (∀ en ∈ acc, ∃ p ∈ nodes, p.2 = en.node) →
      ∀ en ∈ (bfsLayer edges nodes efilter dist layer acc visited).1,
        ∃ p ∈ nodes, p.2 = en.node := by
    intro dist layer acc visited hacc
    rw [bfsLayer]
    generalize hst0 : ((acc, visited, ([] : List String)) :
      List NEntry × List String × List String) = st0
    have h0 : ∀ en ∈ st0.1, ∃ p ∈ nodes, p.2 = en.node := by rw [← hst0]; exact hacc
    clear hst0 hacc
    induction layer generalizing st0 with
    | nil => simpa using h0
    | cons cur rest ih =>
      rw [List.foldl_cons]
      refine ih _ ?_
      clear ih
      induction edges generalizing st0 with
      | nil => simpa using h0
      | cons e es ihe =>
        rw [List.foldl_cons]
        exact ihe _ (hstep dist cur st0 e h0)
  intro r
  induction r with
  | zero => intro dist layer visited acc hacc; simpa [bfsRounds] using hacc
  | succ n ih =>
    intro dist layer visited acc hacc
    rw [bfsRounds]
    exact ih _ _ _ _ (hlayer dist layer acc visited hacc)

/-- Ownership predicate: the id belongs to a unit of the given tenant. -/
def OwnedBy (db : Db) (tenantId : String) (id : String) : Prop :=
  ∃ u ∈ db.units, u.id = id ∧ u.tenantId = tenantId

/-- Sparse retrieval only returns ids stored in the tenant-keyed BM25 index,
hence ids owned by the requesting tenant (given a well-formed index store and
a scorer returning one score per stored document). -/
theorem sparseRetrieve_ids (db : Db)
    (scoreFn : List (List (List Char)) → List (List Char) → List ℚ)
    (sw : List (List Char)) (chatId tenantId : String) (query : String) (topK : ℕ)
    (hscoreFn : ∀ corpus q, (scoreFn corpus q).length = corpus.length)
    (hbm25 : ∀ rec ∈ db.bm25, rec.docIds.length = rec.corpusTokens.length ∧
       ∀ d ∈ rec.docIds, ∃ u ∈ db.units, u.id = d ∧ u.tenantId = rec.tenantId) :
    ∀ r ∈ sparseRetrieve db scoreFn sw chatId tenantId query topK,
      OwnedBy db tenantId r.atomicUnitId := by
  intro r hr
  rw [sparseRetrieve] at hr
  split at hr
  · rename_i rs heq
    rw [bm25ServiceSearch] at heq
    split at heq
    · exact absurd heq (by simp)
    · rename_i idx hfound
      have hmem : idx ∈ db.bm25 := List.mem_of_find?_eq_some hfound
      have hpred : idx.chatId = chatId ∧ idx.tenantId = tenantId := by
        have := List.find?_some hfound
        simpa using this
      injection heq with heq'
      subst heq'
      rcases List.mem_map.mp hr with ⟨pair, hpair, rfl⟩
      rw [bm25SearchResults] at hpair
      rcases List.mem_filterMap.mp hpair with ⟨i, hi, hfi⟩
      dsimp only at hfi
      split at hfi
      · injection hfi with hfi'
        subst hfi'
        have hilt : i < (scoreFn idx.corpusTokens (tokenize true sw query.data)).length := by
          rw [bm25TopIndices] at hi
          have hi2 := (List.take_sublist _ _).subset hi
          have hi3 := (pySortDescBy_perm
            (fun j => (scoreFn idx.corpusTokens (tokenize true sw query.data)).getD j 0) _).mem_iff.mp hi2
          exact List.mem_range.mp hi3
        have hlen : i < idx.docIds.length := by
          rw [(hbm25 idx hmem).1]
          rw [hscoreFn idx.corpusTokens (tokenize true sw query.data)] at hilt
          exact hilt
        rcases (hbm25 idx hmem).2 (idx.docIds.getD i "") (getD_mem _ _ _ hlen) with ⟨u, hu, hid, ht⟩
        exact ⟨u, hu, hid, ht.trans hpred.2⟩
      · exact absurd hfi (by simp)
  · simp at hr

/-- The inner neighbor loop of `_expand_with_neighbors` preserves id
ownership: every appended item carries a node id of the loaded graph. -/
theorem foldl_neighbors_ids (db : Db) (tenantId : String) (sc : ℚ) :
    ∀ (ns : List NEntry), (∀ n ∈ ns, OwnedBy db tenantId n.node.nodeId) →
    ∀ (st : List RItem × List String), (∀ x ∈ st.1, OwnedBy db tenantId x.atomicUnitId) →
    ∀ x ∈ (ns.foldl (fun (st2 : List RItem × List String) n =>
        let (exp2, seen2) := st2
        if seen2.contains n.node.nodeId then st2
        else
          (exp2 ++ [{ atomicUnitId := n.node.nodeId,
                      score := sc * (0.8 : ℚ) ^ n.distance,
                      source := "graph", graphDistance := some n.distance }],
           seen2 ++ [n.node.nodeId])) st).1,
      OwnedBy db tenantId x.atomicUnitId := by
  intro ns
  induction ns with
  | nil => intro _ st hst x hx; simpa using hst x hx
  | cons n nrest ihn =>
    intro hns st hst
    rw [List.foldl_cons]
    refine ihn (fun m hm => hns m (by simp [hm])) _ ?_
    obtain ⟨exp1, seen1⟩ := st
    dsimp only
    split
    · exact hst
    · intro x hx
      rcases List.mem_append.mp hx with hx' | hx'
      · exact hst x hx'
      · rcases List.mem_singleton.mp hx' with rfl
        exact hns n (by simp)

/-- Neighbor expansion only adds ids of the tenant-keyed stored graph, so it
preserves id ownership (given a well-formed graph store). -/
theorem expandNeighbors_ids (db : Db) (chatId tenantId : String)
    (results : List RItem) (hops : ℕ)
    (hgraphs : ∀ g ∈ db.graphs, ∀ p ∈ g.nodes,
       ∃ u ∈ db.units, u.id = p.2.nodeId ∧ u.tenantId = g.tenantId)
    (hres : ∀ r ∈ results, OwnedBy db tenantId r.atomicUnitId) :
    ∀ r ∈ expandNeighbors db chatId tenantId results hops,
      OwnedBy db tenantId r.atomicUnitId := by
  have hneigh : ∀ (nodeId : String) (ns : List NEntry),
      getNeighborsSvc db chatId tenantId nodeId none hops = .ok ns →
      ∀ n ∈ ns, OwnedBy db tenantId n.node.nodeId := by
    intro nodeId ns heq n hn
    rw [getNeighborsSvc] at heq
    split at heq
    · exact absurd heq (by simp)
    · rename_i g hfound
      have hgmem : g ∈ db.graphs := List.mem_of_find?_eq_some hfound
      have hgpred : g.chatId = chatId ∧ g.tenantId = tenantId := by
        have := List.find?_some hfound
        simpa using this
      injection heq with heq'
      subst heq'
      rw [getNeighbors] at hn
      rcases bfs_nodes_from_map g.edges g.nodes none hops 1 [nodeId] [nodeId] []
        (by simp) n hn with ⟨p, hp, hpn⟩
      rcases hgraphs g hgmem p hp with ⟨u, hu, hid, ht⟩
      exact ⟨u, hu, by rw [hid, hpn], ht.trans hgpred.2⟩
  intro r hr
  rw [expandNeighbors] at hr
  have hr' := (pySortDescBy_perm (fun x : RItem => x.score) _).mem_iff.mp hr
  clear hr
  revert hr'
  suffices h : ∀ (rs : List RItem), (∀ x ∈ rs, OwnedBy db tenantId x.atomicUnitId) →
      ∀ (st : List RItem × List String), (∀ x ∈ st.1, OwnedBy db tenantId x.atomicUnitId) →
      ∀ x ∈ (rs.foldl (fun (st : List RItem × List String) result =>
        let (expanded, seen) := st
        let (expanded, seen) :=
          if seen.contains result.atomicUnitId then (expanded, seen)
          else (expanded ++ [result], seen ++ [result.atomicUnitId])
        match getNeighborsSvc db chatId tenantId result.atomicUnitId none hops with
        | .error _ => (expanded, seen)
        | .ok ns => ns.foldl (fun (st2 : List RItem × List String) n =>
            let (exp2, seen2) := st2
            if seen2.contains n.node.nodeId then st2
            else
              (exp2 ++ [{ atomicUnitId := n.node.nodeId,
                          score := result.score * (0.8 : ℚ) ^ n.distance,
                          source := "graph", graphDistance := some n.distance }],
               seen2 ++ [n.node.nodeId])) (expanded, seen)) st).1,
        OwnedBy db tenantId x.atomicUnitId by
    intro hr'
    exact h results hres ([], []) (by simp) r hr'
  intro rs
  induction rs with
  | nil => intro _ st hst x hx; simpa using hst x hx
  | cons res rest ih =>
    intro hrs st hst
    rw [List.foldl_cons]
    refine ih (fun x hx => hrs x (by simp [hx])) _ ?_
    obtain ⟨exp0, seen0⟩ := st
    have hres0 : OwnedBy db tenantId res.atomicUnitId := hrs res (by simp)
    dsimp only
    have hadd : ∀ x ∈ (if seen0.contains res.atomicUnitId then (exp0, seen0)
        else (exp0 ++ [res], seen0 ++ [res.atomicUnitId])).1,
        OwnedBy db tenantId x.atomicUnitId := by
      split
      · exact fun x hx => hst x hx
      · intro x hx
        rcases List.mem_append.mp hx with hx' | hx'
        · exact hst x hx'
        · rcases List.mem_singleton.mp hx' with rfl
          exact hres0
    split
    · exact hadd
    · rename_i ns hok
      exact foldl_neighbors_ids db tenantId res.score ns
        (hneigh res.atomicUnitId ns hok) _ hadd

/-- Enrichment resolves every surviving result id to its unique owning unit:
although the `WHERE id IN ...` lookup carries no tenant filter, unique unit
ids force the resolved unit to be the owner of the id. -/
theorem enrich_members (db : Db) (tenantA : String)
    (hnd : (db.units.map AtomicUnit.id).Nodup)
    (results : List RItem)
    (hres : ∀ r ∈ results, OwnedBy db tenantA r.atomicUnitId) :
    ∀ ctx ∈ enrichResults db.units results,
      ∃ u ∈ db.units, u.id = ctx.atomicUnitId ∧ u.tenantId = tenantA ∧
        ctx.documentId = u.documentId := by
  intro ctx hctx
  rw [enrichResults] at hctx
  rcases List.mem_filterMap.mp hctx with ⟨r, hr, hfr⟩
  split at hfr
  · rename_i u hfind
    injection hfr with hfr'
    subst hfr'
    have hu : u ∈ db.units := List.mem_of_find?_eq_some hfind
    have huid : u.id = r.atomicUnitId := by simpa using List.find?_some hfind
    rcases hres r hr with ⟨uA, huA, hidA, htA⟩
    have : u = uA := nodup_map_inj AtomicUnit.id db.units hnd u hu uA huA (by rw [huid, hidA])
    exact ⟨u, hu, huid, this ▸ htA, rfl⟩
  · exact absurd hfr (by simp)

/-- C3: tenant isolation of `retrieve`.  Hypotheses: unit ids are unique (DB
primary keys); the scorer returns one score per stored document; every stored
BM25 index and graph only contains ids of its own tenant's units (the build
paths load units keyed by `(chat_id, tenant_id)`); the external vector store
honours its tenant filter; and tenant B's documents are disjoint from tenant
A's.  Conclusion: every context retrieve returns for tenant A resolves to one
of tenant A's units, and its `document_id` never belongs to tenant B. -/
theorem tenant_isolation (db : Db)
    (scoreFn : List (List (List Char)) → List (List Char) → List ℚ)
    (denseOutcome : ℕ → ℚ → Except String (List RItem))
    (sw : List (List Char)) (chatId tenantA tenantB : String) (req : RetrievalRequest)
    (hnd : (db.units.map AtomicUnit.id).Nodup)
    (hscoreFn : ∀ corpus q, (scoreFn corpus q).length = corpus.length)
    (hbm25 : ∀ rec ∈ db.bm25, rec.docIds.length = rec.corpusTokens.length ∧
       ∀ d ∈ rec.docIds, ∃ u ∈ db.units, u.id = d ∧ u.tenantId = rec.tenantId)
    (hgraphs : ∀ g ∈ db.graphs, ∀ p ∈ g.nodes,
       ∃ u ∈ db.units, u.id = p.2.nodeId ∧ u.tenantId = g.tenantId)
    (hdense : ∀ (k : ℕ) (t : ℚ) (rs : List RItem), denseOutcome k t = .ok rs →
       ∀ r ∈ rs, OwnedBy db tenantA r.atomicUnitId)
    (hdocs : ∀ uA ∈ db.units, ∀ uB ∈ db.units,
       uA.tenantId = tenantA → uB.tenantId = tenantB → uA.documentId ≠ uB.documentId) :
    ∀ (ctxs : List RetrievedContext) (ctx : RetrievedContext),
      (retrieve db scoreFn denseOutcome sw chatId tenantA req).2 = .ok ctxs →
      ctx ∈ ctxs →
      (∃ u ∈ db.units, u.id = ctx.atomicUnitId ∧ u.tenantId = tenantA ∧
        ctx.documentId = u.documentId) ∧
      (∀ uB ∈ db.units, uB.tenantId = tenantB → ctx.documentId ≠ uB.documentId) := by
  have hdenseAll : ∀ (k : ℕ) (t : ℚ), ∀ r ∈ denseRetrieve (denseOutcome k t),
      OwnedBy db tenantA r.atomicUnitId := by
    intro k t r hr
    rw [denseRetrieve.eq_def] at hr
    split at hr
    · rename_i rs heq
      rcases List.mem_map.mp hr with ⟨r0, hr0, rfl⟩
      exact hdense k t rs heq r0 hr0
    · simp at hr
  have hsparseAll : ∀ (query : String) (k : ℕ), ∀ r ∈ sparseRetrieve db scoreFn sw chatId tenantA query k,
      OwnedBy db tenantA r.atomicUnitId :=
    fun query k => sparseRetrieve_ids db scoreFn sw chatId tenantA query k hscoreFn hbm25
  have hhybridAll : ∀ (query : String) (k : ℕ) (t : ℚ),
      ∀ r ∈ hybridRetrieve db scoreFn denseOutcome sw chatId tenantA query k t,
      OwnedBy db tenantA r.atomicUnitId := by
    intro query k t r hr
    rw [hybridRetrieve] at hr
    have hr' := (List.take_sublist _ _).subset hr
    refine fuse_ids (OwnedBy db tenantA) 60 _ _ ?_ r hr'
    intro l hl it hit
    rcases List.mem_cons.mp hl with rfl | hl'
    · exact hdenseAll (k * 2) t it hit
    · rcases List.mem_cons.mp hl' with rfl | hl''
      · exact hsparseAll query (k * 2) it hit
      · simp at hl''
  obtain ⟨query, mode, topK, thr, expand, hops⟩ := req
  intro ctxs ctx hok hctx
  have hbody : retrieveBody db scoreFn denseOutcome sw chatId tenantA
      ⟨query, mode, topK, thr, expand, hops⟩ = ctxs := by
    simpa [retrieve] using hok
  rw [← hbody] at hctx
  rw [retrieveBody] at hctx
  dsimp only at hctx
  have hchain : ∀ (results : List RItem), (∀ r ∈ results, OwnedBy db tenantA r.atomicUnitId) →
      ctx ∈ ((enrichResults db.units
        (if expand ∧ mode ≠ RMode.graphEnhanced then
          expandNeighbors db chatId tenantA results hops else results)).filter
          (fun c => thr ≤ c.score)).take topK →
      (∃ u ∈ db.units, u.id = ctx.atomicUnitId ∧ u.tenantId = tenantA ∧
        ctx.documentId = u.documentId) ∧
      (∀ uB ∈ db.units, uB.tenantId = tenantB → ctx.documentId ≠ uB.documentId) := by
    intro results hresall hmem
    have hmem2 : ctx ∈ enrichResults db.units
        (if expand ∧ mode ≠ RMode.graphEnhanced then
          expandNeighbors db chatId tenantA results hops else results) :=
      (List.filter_sublist _).subset ((List.take_sublist _ _).subset hmem)
    have hres2 : ∀ r ∈ (if expand ∧ mode ≠ RMode.graphEnhanced then
        expandNeighbors db chatId tenantA results hops else results),
        OwnedBy db tenantA r.atomicUnitId := by
      split
      · exact expandNeighbors_ids db chatId tenantA results hops hgraphs hresall
      · exact hresall
    have hmain := enrich_members db tenantA hnd _ hres2 ctx hmem2
    refine ⟨hmain, ?_⟩
    rcases hmain with ⟨u, hu, _, htA, hdoc⟩
    intro uB huB htB
    rw [hdoc]
    exact hdocs u hu uB huB htA htB
  cases mode with
  | denseOnly => exact hchain _ (fun r hr => hdenseAll topK thr r hr) hctx
  | sparseOnly => exact hchain _ (fun r hr => hsparseAll query topK r hr) hctx
  | hybridMode => exact hchain _ (fun r hr => hhybridAll query topK thr r hr) hctx
  | graphEnhanced =>
    exact hchain _ (expandNeighbors_ids db chatId tenantA _ hops hgraphs
      (fun r hr => hhybridAll query topK thr r hr)) hctx

/-- Concrete two-tenant database for the C3 witness. -/
def isoDb : Db :=
  { units := [⟨"uA1", "tA", "c1", "dA", "alpha".data, "paragraph", 0, 0⟩,
              ⟨"uB1", "tB", "c2", "dB", "beta".data, "paragraph", 0, 0⟩],
    bm25 := [⟨"tA", "c1", [["alpha".data]], ["uA1"]⟩],
    graphs := [⟨"tA", "c1", [("uA1", ⟨"uA1"⟩)], []⟩] }

/-- Concrete scorer for the C3 witness: one (constant) score per document. -/
def isoScoreFn : List (List (List Char)) → List (List Char) → List ℚ :=
  fun corpus _ => corpus.map (fun _ => (1 : ℚ))

/-- Concrete dense outcome for the C3 witness: the vector store call fails. -/
def isoDense : ℕ → ℚ → Except String (List RItem) :=
  fun _ _ => .error "vector store down"

theorem tenant_isolation_witness :
    ((isoDb.units.map AtomicUnit.id).Nodup ∧
     (∀ rec ∈ isoDb.bm25, rec.docIds.length = rec.corpusTokens.length ∧
        ∀ d ∈ rec.docIds, ∃ u ∈ isoDb.units, u.id = d ∧ u.tenantId = rec.tenantId) ∧
     (∀ g ∈ isoDb.graphs, ∀ p ∈ g.nodes,
        ∃ u ∈ isoDb.units, u.id = p.2.nodeId ∧ u.tenantId = g.tenantId)) ∧
    (∀ (ctxs : List RetrievedContext) (ctx : RetrievedContext),
      (retrieve isoDb isoScoreFn isoDense [] "c1" "tA"
        ⟨"alpha", .hybridMode, 5, 0, true, 2⟩).2 = .ok ctxs →
      ctx ∈ ctxs →
      (∃ u ∈ isoDb.units, u.id = ctx.atomicUnitId ∧ u.tenantId = "tA" ∧
        ctx.documentId = u.documentId) ∧
      (∀ uB ∈ isoDb.units, uB.tenantId = "tB" → ctx.documentId ≠ uB.documentId)) :=
  ⟨⟨by decide, by decide, by decide⟩,
   tenant_isolation isoDb isoScoreFn isoDense [] "c1" "tA" "tB"
     ⟨"alpha", .hybridMode, 5, 0, true, 2⟩
     (by decide)
     (by intro corpus q; simp [isoScoreFn])
     (by decide)
     (by decide)
     (by intro k t rs h; simp [isoDense] at h)
     (by decide)⟩

/-! ## C6: tokenizer idempotence -/

theorem mem_of_getLast?' {l : List Char} {a : Char} (h : l.getLast? = some a) : a ∈ l := by
  have h2 : l.reverse.head? = some a := by rw [List.head?_reverse]; exact h
  cases hrev : l.reverse with
  | nil => rw [hrev] at h2; simp at h2
  | cons x xs =>
    rw [hrev] at h2
    have h3 : x = a := by injection h2
    have h4 : a ∈ l.reverse := by
      rw [hrev, ← h3]
      exact List.mem_cons_self x xs
    exact List.mem_reverse.mp h4

theorem takeWhile_of_all (p : Char → Bool) :
    ∀ l : List Char, (∀ c ∈ l, p c = true) → l.takeWhile p = l := by
  intro l
  induction l with
  | nil => intro _; rfl
  | cons a as ih =>
    intro h
    rw [List.takeWhile_cons, if_pos (h a (by simp))]
    rw [ih (fun c hc => h c (by simp [hc]))]

theorem dropWhile_of_all (p : Char → Bool) :
    ∀ l : List Char, (∀ c ∈ l, p c = true) → l.dropWhile p = [] := by
  intro l
  induction l with
  | nil => intro _; rfl
  | cons a as ih =>
    intro h
    rw [List.dropWhile_cons, if_pos (h a (by simp))]
    exact ih (fun c hc => h c (by simp [hc]))

theorem takeWhile_append_stop (p : Char → Bool) :
    ∀ (l : List Char) (d : Char) (r : List Char),
      (∀ c ∈ l, p c = true) → p d = false → (l ++ d :: r).takeWhile p = l := by
  intro l
  induction l with
  | nil =>
    intro d r _ hd
    rw [List.nil_append, List.takeWhile_cons, if_neg (by simp [hd])]
  | cons a as ih =>
    intro d r h hd
    rw [List.cons_append, List.takeWhile_cons, if_pos (h a (by simp))]
    rw [ih d r (fun c hc => h c (by simp [hc])) hd]

theorem dropWhile_append_stop (p : Char → Bool) :
    ∀ (l : List Char) (d : Char) (r : List Char),
      (∀ c ∈ l, p c = true) → p d = false → (l ++ d :: r).dropWhile p = d :: r := by
  intro l
  induction l with
  | nil =>
    intro d r _ hd
    rw [List.nil_append, List.dropWhile_cons, if_neg (by simp [hd])]
  | cons a as ih =>
    intro d r h hd
    rw [List.cons_append, List.dropWhile_cons, if_pos (h a (by simp))]
    exact ih d r (fun c hc => h c (by simp [hc])) hd

theorem dropWhile_eq_self_of_head (p : Char → Bool) (l : List Char)
    (h : ∀ c, l.head? = some c → p c = false) : l.dropWhile p = l := by
  cases l with
  | nil => rfl
  | cons a as => rw [List.dropWhile_cons, if_neg (by simp [h a rfl])]

theorem wordChar_not_hyphen {c : Char} (h : isWordChar c = true) :
    (decide (c = '-')) = false := by
  by_contra hc
  simp only [Bool.not_eq_false, decide_eq_true_eq] at hc
  subst hc
  simp [isWordChar] at h

theorem trimHyphens_eq_self (t : List Char)
    (hh : ∀ c, t.head? = some c → isWordChar c = true)
    (hl : ∀ c, t.getLast? = some c → isWordChar c = true) :
    trimHyphens t = t := by
  rw [trimHyphens]
  rw [dropWhile_eq_self_of_head _ t (fun c hc => wordChar_not_hyphen (hh c hc))]
  rw [dropWhile_eq_self_of_head _ t.reverse
    (fun c hc => wordChar_not_hyphen (hl c (by rw [← List.head?_reverse]; exact hc)))]
  exact List.reverse_reverse t

theorem trimHyphens_subset {t : List Char} {c : Char} (hc : c ∈ trimHyphens t) : c ∈ t := by
  rw [trimHyphens] at hc
  have h1 := List.mem_reverse.mp hc
  have h2 := (List.dropWhile_sublist _).subset h1
  have h3 := List.mem_reverse.mp h2
  exact (List.dropWhile_sublist _).subset h3

/-- The trimmed run is a prefix of the leading-hyphen-stripped run. -/
theorem trimHyphens_decomp (t : List Char) :
    ∃ suf, trimHyphens t ++ suf = t.dropWhile (fun c => c = '-') := by
  rcases List.dropWhile_suffix (l := (t.dropWhile (fun c => c = '-')).reverse)
    (p := fun c => c = '-') with ⟨pre, hpre⟩
  refine ⟨pre.reverse, ?_⟩
  rw [trimHyphens]
  have := congrArg List.reverse hpre
  rw [List.reverse_append, List.reverse_reverse] at this
  exact this

theorem trimHyphens_head {t : List Char} {c : Char}
    (h : (trimHyphens t).head? = some c) : (decide (c = '-')) = false ∧ c ∈ t := by
  have hmem : c ∈ trimHyphens t := by
    cases ht : trimHyphens t with
    | nil => rw [ht] at h; simp at h
    | cons x xs =>
      rw [ht] at h
      have h' : x = c := by injection h
      rw [← h']
      exact List.mem_cons_self x xs
  refine ⟨?_, trimHyphens_subset hmem⟩
  rcases trimHyphens_decomp t with ⟨suf, hsuf⟩
  cases ht : trimHyphens t with
  | nil => rw [ht] at h; simp at h
  | cons x xs =>
    rw [ht] at h
    have h' : x = c := by injection h
    rw [ht, h'] at hsuf
    exact dropWhile_head_false _ t c (xs ++ suf) (by rw [← hsuf]; rfl)

theorem trimHyphens_last {t : List Char} {c : Char}
    (h : (trimHyphens t).getLast? = some c) : (decide (c = '-')) = false ∧ c ∈ t := by
  have hmem : c ∈ trimHyphens t := mem_of_getLast?' h
  refine ⟨?_, trimHyphens_subset hmem⟩
  have h1 : (trimHyphens t).reverse.head? = some c := by rw [List.head?_reverse]; exact h
  rw [trimHyphens, List.reverse_reverse] at h1
  cases hd : (t.dropWhile (fun c => c = '-')).reverse.dropWhile (fun c => c = '-') with
  | nil => rw [hd] at h1; simp at h1
  | cons x xs =>
    rw [hd] at h1
    have h2 : x = c := by injection h1
    rw [h2] at hd
    exact dropWhile_head_false _ _ c xs hd

/-- Shape of every `\b[\w-]+\b` match: nonempty, all characters in the
`[\w-]` class (and drawn from the input), and word characters at both ends.
`Q` is an arbitrary property of the input's characters, inherited by the
tokens' characters. -/
theorem tokenFindall_props (Q : Char → Prop) :
    ∀ s : List Char, (∀ c ∈ s, Q c) → ∀ t ∈ tokenFindall s,
      t ≠ [] ∧ (∀ c ∈ t, inTokenClass c = true ∧ Q c) ∧
      (∀ c, t.head? = some c → isWordChar c = true) ∧
      (∀ c, t.getLast? = some c → isWordChar c = true) := by
  intro s
  induction s using tokenFindall.induct with
  | case1 => intro _ t ht; simp [tokenFindall] at ht
  | case2 c rest hc run rest' tk hemp ih =>
    intro hQ t ht
    rw [tokenFindall, if_pos hc] at ht
    dsimp only at ht
    have hemp' : (trimHyphens ((c :: rest).takeWhile inTokenClass)).isEmpty = true := hemp
    rw [if_pos hemp'] at ht
    exact ih (fun d hd => hQ d ((List.dropWhile_sublist _).subset hd |> fun h => by simp [h]))
      t ht
  | case3 c rest hc run rest' tk hemp ih =>
    intro hQ t ht
    rw [tokenFindall, if_pos hc] at ht
    dsimp only at ht
    have hemp' : ¬(trimHyphens ((c :: rest).takeWhile inTokenClass)).isEmpty = true := hemp
    rw [if_neg hemp'] at ht
    have hrun : ∀ d ∈ (c :: rest).takeWhile inTokenClass, inTokenClass d = true ∧ Q d :=
      fun d hd => ⟨List.mem_takeWhile_imp hd, hQ d (((c :: rest).takeWhile_sublist _).subset hd)⟩
    rcases List.mem_cons.mp ht with rfl | ht'
    · refine ⟨?_, ?_, ?_, ?_⟩
      · intro he
        rw [he] at hemp'
        exact hemp' rfl
      · exact fun d hd => hrun d (trimHyphens_subset hd)
      · intro d hd
        rcases trimHyphens_head hd with ⟨hnh, hdm⟩
        have := (hrun d hdm).1
        rw [inTokenClass, hnh] at this
        simpa using this
      · intro d hd
        rcases trimHyphens_last hd with ⟨hnh, hdm⟩
        have := (hrun d hdm).1
        rw [inTokenClass, hnh] at this
        simpa using this
    · exact ih (fun d hd => hQ d ((List.dropWhile_sublist _).subset hd |> fun h => by simp [h]))
        t ht'
  | case4 c rest hc ih =>
    intro hQ t ht
    rw [tokenFindall, if_neg hc] at ht
    exact ih (fun d hd => hQ d (by simp [hd])) t ht

/-- Computation of `tokenFindall` on a well-formed token followed by a
non-class character, and on a lone token. -/
theorem tokenFindall_token (t : List Char) (ht : t ≠ [])
    (hclass : ∀ c ∈ t, inTokenClass c = true)
    (hh : ∀ c, t.head? = some c → isWordChar c = true)
    (hl : ∀ c, t.getLast? = some c → isWordChar c = true) :
    (∀ r : List Char, tokenFindall (t ++ ' ' :: r) = t :: tokenFindall r) ∧
    tokenFindall t = [t] := by
  obtain ⟨c, cs, rfl⟩ : ∃ c cs, t = c :: cs := by
    cases t with
    | nil => exact absurd rfl ht
    | cons c cs => exact ⟨c, cs, rfl⟩
  have hc : inTokenClass c = true := hclass c (by simp)
  have hcs : ∀ d ∈ cs, inTokenClass d = true := fun d hd => hclass d (by simp [hd])
  have hsp : inTokenClass ' ' = false := by decide
  have htrim : trimHyphens (c :: cs) = c :: cs := trimHyphens_eq_self _ hh hl
  constructor
  · intro r
    rw [List.cons_append, tokenFindall, if_pos hc]
    dsimp only
    have h1 : (c :: (cs ++ ' ' :: r)).takeWhile inTokenClass = c :: cs := by
      rw [show c :: (cs ++ ' ' :: r) = (c :: cs) ++ ' ' :: r from rfl]
      exact takeWhile_append_stop _ (c :: cs) ' ' r hclass hsp
    have h2 : (cs ++ ' ' :: r).dropWhile inTokenClass = ' ' :: r :=
      dropWhile_append_stop _ cs ' ' r hcs hsp
    rw [h1, h2, htrim]
    rw [if_neg (by simp)]
    rw [tokenFindall, if_neg (by rw [hsp]; exact Bool.false_ne_true)]
  · rw [tokenFindall, if_pos hc]
    dsimp only
    have h1 : (c :: cs).takeWhile inTokenClass = c :: cs := takeWhile_of_all _ _ hclass
    have h2 : cs.dropWhile inTokenClass = [] := dropWhile_of_all _ _ hcs
    rw [h1, h2, htrim]
    rw [if_neg (by simp)]
    rw [tokenFindall]

theorem joinSpace_single (t : List Char) : joinSpace [t] = t := rfl

theorem joinSpace_cons₂ (t t' : List Char) (ts : List (List Char)) :
    joinSpace (t :: t' :: ts) = t ++ ' ' :: joinSpace (t' :: ts) := rfl

/-- Characters of a space-join come from the tokens or are the space. -/
theorem mem_joinSpace : ∀ (toks : List (List Char)) (c : Char),
    c ∈ joinSpace toks → c = ' ' ∨ ∃ t ∈ toks, c ∈ t := by
  intro toks
  induction toks with
  | nil => intro c hc; simp [joinSpace] at hc
  | cons t ts ih =>
    intro c hc
    cases ts with
    | nil => exact Or.inr ⟨t, by simp, by simpa [joinSpace_single] using hc⟩
    | cons t' ts' =>
      rw [joinSpace_cons₂] at hc
      rcases List.mem_append.mp hc with hc' | hc'
      · exact Or.inr ⟨t, by simp, hc'⟩
      · rcases List.mem_cons.mp hc' with rfl | hc''
        · exact Or.inl rfl
        · rcases ih c hc'' with h | ⟨u, hu, hcu⟩
          · exact Or.inl h
          · exact Or.inr ⟨u, by simp [hu], hcu⟩

theorem mem_joinSpace_of_mem : ∀ (toks : List (List Char)) (t : List Char) (c : Char),
    t ∈ toks → c ∈ t → c ∈ joinSpace toks := by
  intro toks
  induction toks with
  | nil => intro t c ht; simp at ht
  | cons u ts ih =>
    intro t c ht hc
    cases ts with
    | nil =>
      rcases List.mem_singleton.mp ht with rfl
      simpa [joinSpace_single] using hc
    | cons t' ts' =>
      rw [joinSpace_cons₂]
      rcases List.mem_cons.mp ht with rfl | ht'
      · exact List.mem_append.mpr (Or.inl hc)
      · exact List.mem_append.mpr
          (Or.inr (List.mem_cons.mpr (Or.inr (ih t c ht' hc))))

/-- Re-scanning the space-join of well-formed tokens recovers exactly the
tokens. -/
theorem tokenFindall_joinSpace :
    ∀ toks : List (List Char),
      (∀ t ∈ toks, t ≠ [] ∧ (∀ c ∈ t, inTokenClass c = true) ∧
        (∀ c, t.head? = some c → isWordChar c = true) ∧
        (∀ c, t.getLast? = some c → isWordChar c = true)) →
      tokenFindall (joinSpace toks) = toks := by
  intro toks
  induction toks with
  | nil =>
    intro _
    show tokenFindall [] = []
    rw [tokenFindall]
  | cons t ts ih =>
    intro h
    rcases h t (by simp) with ⟨h1, h2, h3, h4⟩
    cases ts with
    | nil =>
      rw [joinSpace_single]
      exact (tokenFindall_token t h1 h2 h3 h4).2
    | cons t' ts' =>
      rw [joinSpace_cons₂]
      rw [(tokenFindall_token t h1 h2 h3 h4).1 (joinSpace (t' :: ts'))]
      rw [ih (fun u hu => h u (by simp [hu]))]

/-- Every token produced by `tokenize` is a regex match of the lowered text
and survives both token filters. -/
theorem tokenize_members (rs : Bool) (sw : List (List Char)) (s : List Char) :
    ∀ t ∈ tokenize rs sw s,
      t ∈ tokenFindall (s.map charLower) ∧
      (2 ≤ t.length || isDigitToken t) = true ∧
      (rs = true → (!sw.contains t) = true) := by
  intro t ht
  rw [tokenize] at ht
  split at ht
  · simp at ht
  · dsimp only at ht
    cases rs with
    | true =>
      rw [if_pos rfl] at ht
      have h2 := List.mem_filter.mp ht
      have h1 := List.mem_filter.mp h2.1
      exact ⟨h1.1, h2.2, fun _ => h1.2⟩
    | false =>
      rw [if_neg (by simp)] at ht
      have h2 := List.mem_filter.mp ht
      exact ⟨h2.1, h2.2, fun hc => by simp at hc⟩

/-- Tokenizing the space-join of a list of well-formed, lowercase-fixed,
filter-surviving tokens returns exactly that list. -/
theorem tokenize_joinSpace_eq (rs : Bool) (sw : List (List Char))
    (Y : List (List Char)) (hne : Y ≠ [])
    (hprops : ∀ t ∈ Y, t ≠ [] ∧ (∀ c ∈ t, inTokenClass c = true ∧ charLower c = c) ∧
       (∀ c, t.head? = some c → isWordChar c = true) ∧
       (∀ c, t.getLast? = some c → isWordChar c = true))
    (hp2 : ∀ t ∈ Y, (2 ≤ t.length || isDigitToken t) = true)
    (hp1 : rs = true → ∀ t ∈ Y, (!sw.contains t) = true) :
    tokenize rs sw (joinSpace Y) = Y := by
  obtain ⟨t₀, ts, rfl⟩ : ∃ t₀ ts, Y = t₀ :: ts := by
    cases Y with
    | nil => exact absurd rfl hne
    | cons t₀ ts => exact ⟨t₀, ts, rfl⟩
  have hguard : (joinSpace (t₀ :: ts)).all Char.isWhitespace = false := by
    rcases hprops t₀ (by simp) with ⟨ht0ne, ht0c, -, -⟩
    obtain ⟨c₀, cs₀, rfl⟩ : ∃ c₀ cs₀, t₀ = c₀ :: cs₀ := by
      cases t₀ with
      | nil => exact absurd rfl ht0ne
      | cons c₀ cs₀ => exact ⟨c₀, cs₀, rfl⟩
    have hc₀ : c₀ ∈ joinSpace ((c₀ :: cs₀) :: ts) :=
      mem_joinSpace_of_mem ((c₀ :: cs₀) :: ts) (c₀ :: cs₀) c₀ (by simp) (by simp)
    by_contra hcon
    rw [Bool.not_eq_false] at hcon
    have hws := List.all_eq_true.mp hcon c₀ hc₀
    rw [inTokenClass_not_whitespace (ht0c c₀ (by simp)).1] at hws
    exact Bool.false_ne_true hws
  rw [tokenize, if_neg (by rw [hguard]; exact Bool.false_ne_true)]
  dsimp only
  have hlow : (joinSpace (t₀ :: ts)).map charLower = joinSpace (t₀ :: ts) := by
    have hfix : ∀ c ∈ joinSpace (t₀ :: ts), charLower c = c := by
      intro c hc
      rcases mem_joinSpace _ c hc with rfl | ⟨t, htm, hct⟩
      · decide
      · exact ((hprops t htm).2.1 c hct).2
    conv_rhs => rw [show joinSpace (t₀ :: ts) = (joinSpace (t₀ :: ts)).map id from
      (List.map_id _).symm]
    exact List.map_congr_left hfix
  rw [hlow]
  rw [tokenFindall_joinSpace (t₀ :: ts)
    (fun t ht => ⟨(hprops t ht).1, fun c hc => ((hprops t ht).2.1 c hc).1,
      (hprops t ht).2.2.1, (hprops t ht).2.2.2⟩)]
  cases rs with
  | true =>
    rw [if_pos rfl]
    rw [List.filter_eq_self.mpr (hp1 rfl)]
    exact List.filter_eq_self.mpr hp2
  | false =>
    rw [if_neg (by simp)]
    exact List.filter_eq_self.mpr hp2

/-- C6: `tokenize` is a pure function of its input (a Lean function), and it
is idempotent on its own output: re-tokenizing the space-joined token list of
any text — for any stopword set and either stopword setting — returns the
same token list. -/
theorem tokenize_idempotent (rs : Bool) (sw : List (List Char)) (s : List Char) :
    tokenize rs sw (joinSpace (tokenize rs sw s)) = tokenize rs sw s := by
  cases hY : tokenize rs sw s with
  | nil =>
    show tokenize rs sw (joinSpace []) = []
    rw [show joinSpace [] = [] from rfl, tokenize, if_pos (by simp)]
  | cons t₀ ts =>
    rw [← hY]
    have hlowin : ∀ c ∈ s.map charLower, charLower c = c := by
      intro c hc
      rcases List.mem_map.mp hc with ⟨a, _, rfl⟩
      exact charLower_idem a
    refine tokenize_joinSpace_eq rs sw _ (by rw [hY]; simp) ?_ ?_ ?_
    · intro t ht
      have hmem := (tokenize_members rs sw s t ht).1
      rcases tokenFindall_props (fun c => charLower c = c) (s.map charLower) hlowin t hmem
        with ⟨h1, h2, h3, h4⟩
      exact ⟨h1, h2, h3, h4⟩
    · exact fun t ht => (tokenize_members rs sw s t ht).2.1
    · exact fun hrs t ht => (tokenize_members rs sw s t ht).2.2 hrs

end Tahlilchi
